import Mathlib

/-!
Verification development for the jfes JSON tokenizer / value-tree builder.

The repository ships the public header `src/jfes.h` (types, statuses and the
API of `jfes_parse_tokens`, `jfes_parse_to_value`, `jfes_free_value`); the
implementation file itself is not part of the analyzed sources, so every
operation below is modelled from the specification document, faithful to the
data model declared in the header.  Character data is modelled as `List Char`
(one element per input byte), machine indices as `Nat`/`Int`, and the injected
allocator as an explicit allocation / release accounting pair.
-/

set_option maxRecDepth 20000

/-- Return statuses, from `jfes_status_t` in `src/jfes.h`. -/
inductive jfes_status_t where
  | jfes_unknown
  | jfes_success
  | jfes_invalid_arguments
  | jfes_no_memory
  | jfes_invalid_input
  | jfes_error_part
  | jfes_unknown_type
deriving DecidableEq, Repr

/-- Token (and value) types, from `jfes_token_type_t` in `src/jfes.h`. -/
inductive jfes_token_type_t where
  | jfes_undefined
  | jfes_boolean
  | jfes_integer
  | jfes_double
  | jfes_string
  | jfes_array
  | jfes_object
deriving DecidableEq, Repr

/-- Token record, from `jfes_token_t` in `src/jfes.h`: type, start offset,
end offset (both C `int`, with `-1` as the "still open" sentinel) and the
children count.  The C field `end` is a Lean keyword, hence `end_`. -/
structure jfes_token_t where
  type : jfes_token_type_t
  start : Int
  end_ : Int
  size : Nat
deriving DecidableEq, Repr

/-- Owned string, from `jfes_string_t` in `src/jfes.h`: byte data plus the
allocated size. -/
structure jfes_string_t where
  data : List Char
  size : Nat
deriving DecidableEq, Repr

/-- Parser record, from `jfes_parser_t` in `src/jfes.h` (the config pointer
carries no tokenizer-relevant state and is omitted). -/
structure jfes_parser_t where
  pos : Nat
  next_token : Nat
  superior_token : Int
deriving DecidableEq, Repr

/-- Strict-mode toggle: `JFES_STRICT` is commented out in `src/jfes.h`
(line 12), so the default build is the lenient mode. -/
def JFES_STRICT : Bool := false

/-- Compile-time token ceiling, from `src/jfes.h` line 15. -/
def JFES_MAX_TOKENS_COUNT : Nat := 8192

/-- Modelled from the spec: whitespace skipped between tokens. -/
def jfes_is_whitespace (c : Char) : Bool :=
  c = ' ' ∨ c = '\t' ∨ c = '\r' ∨ c = '\n'

/-- Modelled from the spec: the characters that terminate a bare primitive
token (whitespace, separators and closing brackets). -/
def jfes_is_delimiter (c : Char) : Bool :=
  jfes_is_whitespace c ∨ c = ',' ∨ c = ']' ∨ c = '}' ∨ c = ':'

/-- Decimal digit test. -/
def jfes_is_digit (c : Char) : Bool := '0' ≤ c ∧ c ≤ '9'

/-- Hexadecimal digit test (for the \uXXXX escape). -/
def jfes_is_hex_digit (c : Char) : Bool :=
  jfes_is_digit c ∨ ('a' ≤ c ∧ c ≤ 'f') ∨ ('A' ≤ c ∧ c ≤ 'F')

/-- Value of one hexadecimal digit. -/
def jfes_hex_val (c : Char) : Nat :=
  if jfes_is_digit c then c.toNat - 48
  else if 'a' ≤ c ∧ c ≤ 'f' then c.toNat - 87
  else if 'A' ≤ c ∧ c ≤ 'F' then c.toNat - 55
  else 0

/-- Modelled from the spec: integer-literal grammar (optional minus sign
followed by at least one digit). -/
def jfes_is_integer_lit (l : List Char) : Bool :=
  match l with
  | '-' :: rest => rest ≠ [] ∧ rest.all jfes_is_digit
  | _ => l ≠ [] ∧ l.all jfes_is_digit

/-- Modelled from the spec: full numeric-literal grammar (optional minus,
integer part, optional fraction, optional exponent). -/
def jfes_is_number_lit (l : List Char) : Bool :=
  let l1 := match l with
            | '-' :: rest => rest
            | _ => l
  let ds := l1.takeWhile jfes_is_digit
  if ds.isEmpty then false
  else
    let r1 := l1.drop ds.length
    let r2 : Option (List Char) :=
      match r1 with
      | '.' :: rest =>
        let fs := rest.takeWhile jfes_is_digit
        if fs.isEmpty then none else some (rest.drop fs.length)
      | _ => some r1
    match r2 with
    | none => false
    | some [] => true
    | some (e :: rest) =>
      if e = 'e' ∨ e = 'E' then
        let rest2 := match rest with
                     | '+' :: rr => rr
                     | '-' :: rr => rr
                     | _ => rest
        let es := rest2.takeWhile jfes_is_digit
        ¬es.isEmpty ∧ (rest2.drop es.length).isEmpty
      else false

/-- Modelled from the spec: classification of a bare primitive lexeme.
`true`/`false` are Boolean, a lexeme in the integer grammar is Integer, a
numeric lexeme containing `.`, `e` or `E` is Double, anything else is left
Undefined (rejected by strict mode, kept as an untyped token otherwise). -/
def jfes_primitive_token_type (lex : List Char) : jfes_token_type_t :=
  if lex = ['t', 'r', 'u', 'e'] ∨ lex = ['f', 'a', 'l', 's', 'e'] then
    .jfes_boolean
  else if jfes_is_integer_lit lex then .jfes_integer
  else if jfes_is_number_lit lex ∧
          (lex.contains '.' ∨ lex.contains 'e' ∨ lex.contains 'E') then
    .jfes_double
  else .jfes_undefined

example : jfes_primitive_token_type ['3'] = .jfes_integer := by decide
example : jfes_primitive_token_type ['3', '.', '0'] = .jfes_double := by decide
example : jfes_primitive_token_type ['3', 'e', '1'] = .jfes_double := by decide
example : jfes_primitive_token_type ['t', 'r', 'u', 'e'] = .jfes_boolean := by
  decide
example : jfes_primitive_token_type ['a'] = .jfes_undefined := by decide

/-- Tokenizer scan state.  Modelled from the spec: the scanner keeps only a
cursor, the emitted tokens and the index of the currently open container
("superior").  Tokens are stored in reverse emission order (`rts.head?` is
the most recently emitted token); emission index `i` lives at list position
`rts.length - 1 - i`.  The public wrappers reverse the list back. -/
structure jfes_scan_state where
  rts : List jfes_token_t
  superior : Int
deriving DecidableEq, Repr

/-- Position (in a reversed token list) of the most recently emitted token
that is still open (`end_ = -1`), if any. -/
def jfes_find_open : List jfes_token_t → Option Nat
  | [] => none
  | t :: rest =>
    if t.end_ = -1 then some 0
    else (jfes_find_open rest).map (fun q => q + 1)

/-- Modelled from the spec: when a token is emitted while an Array or Object
is the current superior, that container's children count grows by one (a
key/value pair is counted once, at its key: while the value is pending the
superior is the key token, which is not a container, so nothing is
incremented). -/
def jfes_inc_parent_rts (rts : List jfes_token_t) (superior : Int) :
    List jfes_token_t :=
  if superior < 0 then rts
  else
    let p := rts.length - 1 - superior.toNat
    match rts[p]? with
    | none => rts
    | some pt =>
      if pt.type = .jfes_array ∨ pt.type = .jfes_object then
        rts.set p { pt with size := pt.size + 1 }
      else rts

/-- Modelled from the spec: emitting one token.  With a concrete capacity
(`cap = some limit`, the caller-provided buffer) the scan fails with
NoMemory as soon as the buffer is full; with `cap = none` (null buffer, the
count-only pass) emission always succeeds. -/
def jfes_alloc_token (cap : Option Nat) (st : jfes_scan_state)
    (t : jfes_token_t) : Except jfes_status_t jfes_scan_state :=
  match cap with
  | some limit =>
    if limit ≤ st.rts.length then .error .jfes_no_memory
    else .ok { rts := t :: jfes_inc_parent_rts st.rts st.superior,
               superior := st.superior }
  | none => .ok { rts := t :: jfes_inc_parent_rts st.rts st.superior,
                  superior := st.superior }

/-- The token the superior index refers to, if any. -/
def jfes_sup_token (st : jfes_scan_state) : Option jfes_token_t :=
  if st.superior < 0 then none
  else st.rts[st.rts.length - 1 - st.superior.toNat]?

/-- Modelled from the spec: scanning a string body (the cursor is just past
the opening quote).  Returns the position of the closing quote and the
remaining input after it.  Escape sequences are validated on the way; an
input that ends (reaches `length`) before the string closes is a truncated
packet (ErrorPart), an invalid escape is InvalidInput. -/
def jfes_scan_string (length : Nat) : List Char → Nat →
    Except jfes_status_t (Nat × List Char)
  | [], _ => .error .jfes_error_part
  | c :: rest, pos =>
    if length ≤ pos then .error .jfes_error_part
    else if c = '\"' then .ok (pos, rest)
    else if c = '\\' then
      match rest with
      | [] => .error .jfes_error_part
      | e :: rest2 =>
        if length ≤ pos + 1 then .error .jfes_error_part
        else if e = 'u' then
          match rest2 with
          | h1 :: h2 :: h3 :: h4 :: rest3 =>
            if length ≤ pos + 5 then .error .jfes_error_part
            else if jfes_is_hex_digit h1 ∧ jfes_is_hex_digit h2 ∧
                    jfes_is_hex_digit h3 ∧ jfes_is_hex_digit h4 then
              jfes_scan_string length rest3 (pos + 6)
            else .error .jfes_invalid_input
          | _ => .error .jfes_error_part
        else if e = '\"' ∨ e = '/' ∨ e = '\\' ∨ e = 'b' ∨ e = 'f' ∨
                e = 'n' ∨ e = 'r' ∨ e = 't' then
          jfes_scan_string length rest2 (pos + 2)
        else .error .jfes_invalid_input
    else jfes_scan_string length rest (pos + 1)

/-- Modelled from the spec: scanning a bare primitive lexeme.  Consumes
characters until a delimiter or the end of the declared input, returning the
end position, the collected lexeme and the remaining input. -/
def jfes_scan_primitive (length : Nat) : List Char → Nat →
    Nat × List Char × List Char
  | [], pos => (pos, [], [])
  | c :: rest, pos =>
    if length ≤ pos then (pos, [], c :: rest)
    else if jfes_is_delimiter c then (pos, [], c :: rest)
    else
      let r := jfes_scan_primitive length rest (pos + 1)
      (r.1, c :: r.2.1, r.2.2)

/-- Modelled from the spec: one step of the single left-to-right scan, on the
current character `c` (at position `pos < length`) with `rest` the input
after it.  Opening brackets emit an open container token and make it the
superior; closing brackets locate the innermost open token by a backward
scan, finalize its end offset and pop the superior to the next enclosing
open container; a quote scans a string token; a colon turns the token just
emitted (the key) into the superior; a comma restores the superior to the
innermost open container; anything else is scanned as a bare primitive.
Strict mode rejects bareword lexemes that match no recognized grammar. -/
def jfes_scan_step (strict : Bool) (cap : Option Nat) (length : Nat)
    (c : Char) (rest : List Char) (pos : Nat) (st : jfes_scan_state) :
    Except jfes_status_t (List Char × Nat × jfes_scan_state) :=
  if jfes_is_whitespace c then .ok (rest, pos + 1, st)
  else if c = '{' ∨ c = '[' then
    let ty : jfes_token_type_t := if c = '{' then .jfes_object else .jfes_array
    let idx := st.rts.length
    match jfes_alloc_token cap st
        { type := ty, start := (pos : Int), end_ := -1, size := 0 } with
    | .error e => .error e
    | .ok st' => .ok (rest, pos + 1, { st' with superior := (idx : Int) })
  else if c = '}' ∨ c = ']' then
    let ty : jfes_token_type_t := if c = '}' then .jfes_object else .jfes_array
    match jfes_find_open st.rts with
    | none => .error .jfes_invalid_input
    | some p =>
      match st.rts[p]? with
      | none => .error .jfes_invalid_input
      | some t =>
        if t.type ≠ ty then .error .jfes_invalid_input
        else
          let rts' := st.rts.set p { t with end_ := (pos : Int) + 1 }
          let sup' : Int :=
            match jfes_find_open (st.rts.drop (p + 1)) with
            | some q => (st.rts.length : Int) - 1 - ((p : Int) + 1 + (q : Int))
            | none => -1
          .ok (rest, pos + 1, { rts := rts', superior := sup' })
  else if c = '\"' then
    match jfes_scan_string length rest (pos + 1) with
    | .error e => .error e
    | .ok (closePos, rest') =>
      match jfes_alloc_token cap st
          { type := .jfes_string, start := (pos : Int) + 1,
            end_ := (closePos : Int), size := 0 } with
      | .error e => .error e
      | .ok st' => .ok (rest', closePos + 1, st')
  else if c = ':' then
    .ok (rest, pos + 1, { st with superior := (st.rts.length : Int) - 1 })
  else if c = ',' then
    let needReset : Bool :=
      match jfes_sup_token st with
      | some t => t.type != .jfes_array && t.type != .jfes_object
      | none => false
    if needReset then
      let sup' : Int :=
        match jfes_find_open st.rts with
        | some q => (st.rts.length : Int) - 1 - (q : Int)
        | none => st.superior
      .ok (rest, pos + 1, { st with superior := sup' })
    else .ok (rest, pos + 1, st)
  else
    let r := jfes_scan_primitive length (c :: rest) pos
    let ty := jfes_primitive_token_type r.2.1
    if strict ∧ ty = .jfes_undefined then .error .jfes_invalid_input
    else
      match jfes_alloc_token cap st
          { type := ty, start := (pos : Int), end_ := (r.1 : Int),
            size := 0 } with
      | .error e => .error e
      | .ok st' => .ok (r.2.2, r.1, st')

/-- Modelled from the spec: after the scan, any token still open means the
input is a truncated (but so far plausible) packet: ErrorPart. -/
def jfes_scan_finalize (st : jfes_scan_state) :
    Except jfes_status_t jfes_scan_state :=
  if st.rts.any (fun t => t.end_ == -1) then .error .jfes_error_part
  else .ok st

/-- Modelled from the spec: the main scan loop, driven by explicit fuel (the
callers pass `length + 1`, enough because every step advances the cursor). -/
def jfes_scan_loop (strict : Bool) (cap : Option Nat) (length : Nat) :
    Nat → List Char → Nat → jfes_scan_state →
    Except jfes_status_t jfes_scan_state
  | 0, _, _, _ => .error .jfes_unknown
  | fuel + 1, remaining, pos, st =>
    if length ≤ pos then jfes_scan_finalize st
    else
      match remaining with
      | [] => jfes_scan_finalize st
      | c :: rest =>
        match jfes_scan_step strict cap length c rest pos st with
        | .ok r => jfes_scan_loop strict cap length fuel r.1 r.2.1 r.2.2
        | .error e => .error e

/-- Modelled from the spec: the whole tokenizing pass.  Returns the status,
the number of tokens emitted, and the tokens in emission order. -/
def jfes_parse_tokens_core (strict : Bool) (cap : Option Nat)
    (json : List Char) (length : Nat) :
    jfes_status_t × Nat × List jfes_token_t :=
  match jfes_scan_loop strict cap length (length + 1) json 0 ⟨[], -1⟩ with
  | .ok st => (.jfes_success, st.rts.length, st.rts.reverse)
  | .error e => (e, 0, [])

/-- Result of `jfes_parse_tokens`: status, the out value of
`max_tokens_count`, the filled token buffer and the parser object after the
call. -/
structure jfes_tokens_result where
  status : jfes_status_t
  tokens_count : Nat
  tokens : List jfes_token_t
  parser_out : jfes_parser_t
deriving DecidableEq, Repr

/-- Modelled from the spec: `jfes_parse_tokens` (header line 192).  A null
token buffer (`tokens_is_null = true`) makes the call a count-only pass; a
real buffer fails with NoMemory when `max_tokens_count` is smaller than the
input requires.  The mutable parser argument is reset at entry (spec 4.1:
the two-call sizing idiom — a count pass followed by a fill pass on the same
parser — must see identical scans), so only its config matters. -/
def jfes_parse_tokens (_p : jfes_parser_t) (json : List Char) (length : Nat)
    (tokens_is_null : Bool) (max_tokens_count : Nat) : jfes_tokens_result :=
  let cap : Option Nat := if tokens_is_null then none else some max_tokens_count
  let r := jfes_parse_tokens_core JFES_STRICT cap json length
  { status := r.1, tokens_count := r.2.1, tokens := r.2.2,
    parser_out := { pos := length, next_token := r.2.1, superior_token := -1 } }

example :
    (jfes_parse_tokens ⟨0, 0, -1⟩ ['\x7b', '\"', 'a', '\"', ':', '1']
      6 true 0).status = .jfes_error_part := by decide

example :
    (jfes_parse_tokens ⟨0, 0, -1⟩ ['\x7b', '\"', 'a', '\"', ':', '1', '\x7d']
      7 true 0).status = .jfes_success := by decide

example :
    (jfes_parse_tokens ⟨0, 0, -1⟩ ['\x7b', '\"', 'a', '\"', ':', '1', '\x7d']
      7 true 0).tokens_count = 3 := by decide

example :
    (jfes_parse_tokens ⟨0, 0, -1⟩ ['\x7b', '\"', 'a', '\"', ':', '1', '\x7d']
      7 true 0).tokens.map jfes_token_t.type =
      [.jfes_object, .jfes_string, .jfes_integer] := by decide

mutual

/-- Value tree, from `struct jfes_value` in `src/jfes.h`: a tagged union over
boolean, integer, double, string, array and object payloads (plus the
Undefined tag of a cleared value).  The numeric text of a Double is kept as
its lexeme: the native floating-point conversion is outside the model.
Arrays own a sequence of child values, objects own a sequence of
key/value pairs, exactly as `jfes_array_t` / `jfes_object_t` declare. -/
inductive jfes_value_t where
  | jundefined
  | jboolean (b : Bool)
  | jinteger (n : Int)
  | jdouble (lexeme : List Char)
  | jstring (s : jfes_string_t)
  | jarray (items : jfes_array_items)
  | jobject (items : jfes_object_items)

/-- Owned item sequence of an array value (`jfes_array_t`). -/
inductive jfes_array_items where
  | nil
  | cons (head : jfes_value_t) (tail : jfes_array_items)

/-- Owned key/value pair sequence of an object value (`jfes_object_map_t`
entries of a `jfes_object_t`). -/
inductive jfes_object_items where
  | nil
  | cons (key : jfes_string_t) (value : jfes_value_t) (tail : jfes_object_items)

end

/-- The `type` tag of a value (`jfes_value_type_t`, identical to the token
type enumeration per `src/jfes.h` line 64). -/
def jfes_value_type : jfes_value_t → jfes_token_type_t
  | .jundefined => .jfes_undefined
  | .jboolean _ => .jfes_boolean
  | .jinteger _ => .jfes_integer
  | .jdouble _ => .jfes_double
  | .jstring _ => .jfes_string
  | .jarray _ => .jfes_array
  | .jobject _ => .jfes_object

/-- Keys of an object item sequence, in stored order. -/
def jfes_object_keys : jfes_object_items → List jfes_string_t
  | .nil => []
  | .cons k _ tail => k :: jfes_object_keys tail

mutual

/-- Modelled from the spec (4.3): the number of release calls one
`jfes_free_value` traversal performs on a value.  A string releases its
byte buffer; an array releases each element (the element's own storage plus
everything under it) and then the item-pointer buffer and the array record;
an object releases, per pair, the pair record, the key buffer and the value
storage plus everything under it, then the pair-pointer buffer and the
object record; scalars and an Undefined (already cleared) value release
nothing. -/
def jfes_free_releases : jfes_value_t → Nat
  | .jundefined => 0
  | .jboolean _ => 0
  | .jinteger _ => 0
  | .jdouble _ => 0
  | .jstring _ => 1
  | .jarray items => 2 + jfes_free_items items
  | .jobject items => 2 + jfes_free_pairs items

/-- Release calls for the elements of an array value. -/
def jfes_free_items : jfes_array_items → Nat
  | .nil => 0
  | .cons v tail => 1 + jfes_free_releases v + jfes_free_items tail

/-- Release calls for the pairs of an object value. -/
def jfes_free_pairs : jfes_object_items → Nat
  | .nil => 0
  | .cons _ v tail => 3 + jfes_free_releases v + jfes_free_pairs tail

end

/-- Modelled from the spec: `jfes_free_value` (header line 216).  Returns the
status together with the number of release calls made through the injected
deallocator.  Freeing an Undefined (already cleared) value is a no-op. -/
def jfes_free_value (v : jfes_value_t) : jfes_status_t × Nat :=
  (.jfes_success, jfes_free_releases v)

/-- Modelled from the spec: translation of one escape character. -/
def jfes_escape_char (e : Char) : Char :=
  if e = 'n' then '\n'
  else if e = 't' then '\t'
  else if e = 'r' then '\r'
  else if e = 'b' then '\x08'
  else if e = 'f' then '\x0c'
  else e

/-- Modelled from the spec: UTF-8 encoding of a \uXXXX code point (at most
three bytes for a four-hex-digit code point). -/
def jfes_utf8_encode (cp : Nat) : List Char :=
  if cp < 128 then [Char.ofNat cp]
  else if cp < 2048 then
    [Char.ofNat (192 + cp / 64), Char.ofNat (128 + cp % 64)]
  else
    [Char.ofNat (224 + cp / 4096), Char.ofNat (128 + cp / 64 % 64),
     Char.ofNat (128 + cp % 64)]

/-- Modelled from the spec (4.2): resolving the escape sequences of a string
token's source span into the owned buffer contents.  The fuel is the length
of the span (every step consumes at least one character). -/
def jfes_unescape : Nat → List Char → List Char
  | 0, _ => []
  | _, [] => []
  | fuel + 1, c :: rest =>
    if c = '\\' then
      match rest with
      | [] => []
      | e :: rest2 =>
        if e = 'u' then
          match rest2 with
          | h1 :: h2 :: h3 :: h4 :: rest3 =>
            jfes_utf8_encode
                (jfes_hex_val h1 * 4096 + jfes_hex_val h2 * 256 +
                 jfes_hex_val h3 * 16 + jfes_hex_val h4) ++
              jfes_unescape fuel rest3
          | _ => []
        else jfes_escape_char e :: jfes_unescape fuel rest2
    else c :: jfes_unescape fuel rest

/-- Modelled from the spec: building the owned string for a source span, the
buffer sized to the unescaped length. -/
def jfes_unescape_string (src : List Char) : jfes_string_t :=
  let dat := jfes_unescape src.length src
  { data := dat, size := dat.length }

/-- Decimal value of a digit string. -/
def jfes_atoi_digits (l : List Char) : Nat :=
  l.foldl (fun acc c => acc * 10 + (c.toNat - 48)) 0

/-- Modelled from the spec: integer conversion of an Integer token lexeme. -/
def jfes_atoi (l : List Char) : Int :=
  match l with
  | '-' :: rest => -(jfes_atoi_digits rest : Int)
  | _ => (jfes_atoi_digits l : Int)

/-- The source span `[start, end)` of a token, re-read from the raw input
(spec section 2: the builder re-reads the raw text using token offsets). -/
def jfes_token_span (json : List Char) (t : jfes_token_t) : List Char :=
  (json.drop t.start.toNat).take (t.end_ - t.start).toNat

mutual

/-- Modelled from the spec (4.2): building one value from the token at
cursor `i`.  Returns the outcome (the value and the cursor past its tokens,
or the failure status) together with the number of allocator calls and of
deallocator calls the step performed: a String allocates its buffer; an
Array allocates its record and its item buffer before its children, each
child getting its own value record; an Object allocates its record and its
pair buffer, then per pair the pair record, the key buffer and the value
record.  On any failure every allocation made so far in the call is
released again (spec 4.2: partially built trees are destroyed before the
error is returned).  A token typed outside the recognized set fails with
UnknownType.  The fuel bounds the nesting depth; callers pass
`2 * tokens + 2`, enough because every recursion level consumes a token or
a counted child. -/
def jfes_build_value (json : List Char) (tokens : List jfes_token_t) :
    Nat → Nat → Except jfes_status_t (jfes_value_t × Nat) × Nat × Nat
  | 0, _ => (.error .jfes_unknown, 0, 0)
  | fuel + 1, i =>
    match tokens[i]? with
    | none => (.error .jfes_invalid_input, 0, 0)
    | some t =>
      match t.type with
      | .jfes_undefined => (.error .jfes_unknown_type, 0, 0)
      | .jfes_boolean =>
        (.ok (.jboolean (jfes_token_span json t = ['t', 'r', 'u', 'e']),
              i + 1), 0, 0)
      | .jfes_integer =>
        (.ok (.jinteger (jfes_atoi (jfes_token_span json t)), i + 1), 0, 0)
      | .jfes_double =>
        (.ok (.jdouble (jfes_token_span json t), i + 1), 0, 0)
      | .jfes_string =>
        (.ok (.jstring (jfes_unescape_string (jfes_token_span json t)),
              i + 1), 1, 0)
      | .jfes_array =>
        match jfes_build_items json tokens fuel t.size (i + 1) with
        | (.ok (items, j), a, r) => (.ok (.jarray items, j), a + 2, r)
        | (.error e, a, r) => (.error e, a + 2, r + 2)
      | .jfes_object =>
        match jfes_build_pairs json tokens fuel t.size (i + 1) with
        | (.ok (ps, j), a, r) => (.ok (.jobject ps, j), a + 2, r)
        | (.error e, a, r) => (.error e, a + 2, r + 2)
termination_by structural fuel i => fuel

/-- Modelled from the spec (4.2): building `n` array elements from cursor
`i`, with allocation / release accounting.  Each element gets one value
record; when a later element fails, the elements already built are freed
again before the error propagates. -/
def jfes_build_items (json : List Char) (tokens : List jfes_token_t) :
    Nat → Nat → Nat → Except jfes_status_t (jfes_array_items × Nat) × Nat × Nat
  | 0, _, _ => (.error .jfes_unknown, 0, 0)
  | _ + 1, 0, i => (.ok (.nil, i), 0, 0)
  | fuel + 1, n + 1, i =>
    match jfes_build_value json tokens fuel i with
    | (.ok (v, j), a, r) =>
      match jfes_build_items json tokens fuel n j with
      | (.ok (vs, k), a', r') => (.ok (.cons v vs, k), a + a' + 1, r + r')
      | (.error e, a', r') =>
        (.error e, a + a' + 1, r + r' + (1 + jfes_free_releases v))
    | (.error e, a, r) => (.error e, a + 1, r + 1)
termination_by structural fuel n i => fuel

/-- Modelled from the spec (4.2): building `n` object pairs from cursor `i`.
The token at the cursor must be a String key (a pair record, the key buffer
and a value record are allocated for it); an Undefined token where a key is
required fails with UnknownType, any other non-string token with
InvalidInput.  On failure the pairs already built are freed again. -/
def jfes_build_pairs (json : List Char) (tokens : List jfes_token_t) :
    Nat → Nat → Nat →
    Except jfes_status_t (jfes_object_items × Nat) × Nat × Nat
  | 0, _, _ => (.error .jfes_unknown, 0, 0)
  | _ + 1, 0, i => (.ok (.nil, i), 0, 0)
  | fuel + 1, n + 1, i =>
    match tokens[i]? with
    | none => (.error .jfes_invalid_input, 0, 0)
    | some kt =>
      match kt.type with
      | .jfes_string =>
        match jfes_build_value json tokens fuel (i + 1) with
        | (.ok (v, j), a, r) =>
          match jfes_build_pairs json tokens fuel n j with
          | (.ok (ps, k), a', r') =>
            (.ok (.cons (jfes_unescape_string (jfes_token_span json kt)) v ps,
                  k), a + a' + 3, r + r')
          | (.error e, a', r') =>
            (.error e, a + a' + 3, r + r' + (3 + jfes_free_releases v))
        | (.error e, a, r) => (.error e, a + 3, r + 3)
      | .jfes_undefined => (.error .jfes_unknown_type, 0, 0)
      | _ => (.error .jfes_invalid_input, 0, 0)
termination_by structural fuel n i => fuel

end

/-- Result of `jfes_parse_to_value`: the built root value (or the failure
status, the out parameter left unset) plus the model's allocator
instrumentation — how many allocation calls and how many release calls the
whole pass performed. -/
structure jfes_value_result where
  result : Except jfes_status_t jfes_value_t
  allocated : Nat
  released : Nat

/-- Modelled from the spec: `jfes_parse_to_value` (header line 205).
Tokenizes with an internal buffer bounded by `JFES_MAX_TOKENS_COUNT`, then
builds the value tree from token 0. -/
def jfes_parse_to_value (json : List Char) (length : Nat) :
    jfes_value_result :=
  let r := jfes_parse_tokens_core JFES_STRICT (some JFES_MAX_TOKENS_COUNT)
    json length
  if r.1 ≠ .jfes_success then
    { result := .error r.1, allocated := 0, released := 0 }
  else
    match jfes_build_value json r.2.2 (2 * r.2.1 + 2) 0 with
    | (.ok (v, _), a, r) => { result := .ok v, allocated := a, released := r }
    | (.error e, a, r) => { result := .error e, allocated := a, released := r }

example :
    (jfes_parse_to_value ['3'] 1).result = .ok (.jinteger 3) := rfl
example :
    (jfes_parse_to_value ['3', '.', '0'] 3).result.map jfes_value_type =
      .ok .jfes_double := rfl
example :
    (jfes_parse_to_value ['3', 'e', '1'] 3).result.map jfes_value_type =
      .ok .jfes_double := rfl
example :
    (jfes_parse_to_value ['\"', 'a', '\\', 'n', 'b', '\"'] 6).result =
      .ok (.jstring ⟨['a', '\n', 'b'], 3⟩) := rfl

/-- The UTF-8 encoding of a four-hex-digit code point takes at most three
bytes. -/
theorem jfes_utf8_encode_length_le (cp : Nat) :
    (jfes_utf8_encode cp).length ≤ 3 := by
  unfold jfes_utf8_encode
  split
  · simp
  · split <;> simp

/-- Unescaping never grows a string: every escape sequence consumes at least
as many source characters as it emits. -/
theorem jfes_unescape_length_le :
    ∀ fuel src, (jfes_unescape fuel src).length ≤ src.length := by
  intro fuel
  induction fuel with
  | zero => intro src; simp [jfes_unescape]
  | succ n ih =>
    intro src
    match src with
    | [] => simp [jfes_unescape]
    | c :: rest =>
      by_cases hc : c = '\\'
      · subst hc
        match rest with
        | [] => simp [jfes_unescape]
        | e :: rest2 =>
          by_cases he : e = 'u'
          · subst he
            match rest2 with
            | [] => simp [jfes_unescape]
            | [h1] => simp [jfes_unescape]
            | [h1, h2] => simp [jfes_unescape]
            | [h1, h2, h3] => simp [jfes_unescape]
            | h1 :: h2 :: h3 :: h4 :: rest3 =>
              have hu := jfes_utf8_encode_length_le
                (jfes_hex_val h1 * 4096 + jfes_hex_val h2 * 256 +
                 jfes_hex_val h3 * 16 + jfes_hex_val h4)
              have hr := ih rest3
              simp only [jfes_unescape, if_true, List.length_append,
                List.length_cons]
              omega
          · have hr := ih rest2
            simp [jfes_unescape, he]
            omega
      · have hr := ih rest
        simp [jfes_unescape, hc]
        omega

/-- One builder step on an Integer-typed token: the Integer representation is
chosen from the token type alone, whatever the underlying text. -/
theorem jfes_build_value_integer (json : List Char) (tokens : List jfes_token_t)
    (fuel i : Nat) (t : jfes_token_t) (h1 : tokens[i]? = some t)
    (h2 : t.type = .jfes_integer) :
    jfes_build_value json tokens (fuel + 1) i =
      (.ok (.jinteger (jfes_atoi (jfes_token_span json t)), i + 1), 0, 0) := by
  simp [jfes_build_value, h1, h2]

/-- One builder step on a Double-typed token. -/
theorem jfes_build_value_double (json : List Char) (tokens : List jfes_token_t)
    (fuel i : Nat) (t : jfes_token_t) (h1 : tokens[i]? = some t)
    (h2 : t.type = .jfes_double) :
    jfes_build_value json tokens (fuel + 1) i =
      (.ok (.jdouble (jfes_token_span json t), i + 1), 0, 0) := by
  simp [jfes_build_value, h1, h2]

/-- One builder step on a String-typed token: the value owns the unescaped
copy of the source span. -/
theorem jfes_build_value_string (json : List Char) (tokens : List jfes_token_t)
    (fuel i : Nat) (t : jfes_token_t) (h1 : tokens[i]? = some t)
    (h2 : t.type = .jfes_string) :
    jfes_build_value json tokens (fuel + 1) i =
      (.ok (.jstring (jfes_unescape_string (jfes_token_span json t)), i + 1),
       1, 0) := by
  simp [jfes_build_value, h1, h2]

/-- A token span is never longer than the token's `[start, end)` extent. -/
theorem jfes_token_span_length_le (json : List Char) (t : jfes_token_t) :
    (jfes_token_span json t).length ≤ (t.end_ - t.start).toNat := by
  simp [jfes_token_span]

/-- Claim C1: tokenizing the truncated input `\x7b"a":1` stops with
ErrorPart, while the complete input `\x7b"a":1\x7d` succeeds with exactly
three tokens written: an Object token, a String token for the key and an
Integer token for the value. -/
theorem claim_C1 :
    (jfes_parse_tokens ⟨0, 0, -1⟩ ['\x7b', '\"', 'a', '\"', ':', '1']
        6 false 8).status = .jfes_error_part ∧
    (jfes_parse_tokens ⟨0, 0, -1⟩ ['\x7b', '\"', 'a', '\"', ':', '1', '\x7d']
        7 false 8).status = .jfes_success ∧
    (jfes_parse_tokens ⟨0, 0, -1⟩ ['\x7b', '\"', 'a', '\"', ':', '1', '\x7d']
        7 false 8).tokens_count = 3 ∧
    (jfes_parse_tokens ⟨0, 0, -1⟩ ['\x7b', '\"', 'a', '\"', ':', '1', '\x7d']
        7 false 8).tokens.map jfes_token_t.type =
      [.jfes_object, .jfes_string, .jfes_integer] := by
  exact ⟨by decide, by decide, by decide, by decide⟩

/-- Claim C2: the input `3` builds an Integer value equal to 3, the inputs
`3.0` and `3e1` build Double values, and in general one builder step on an
Integer-typed (or Double-typed) token produces an Integer (or Double) value
from the token type alone, for every possible underlying text. -/
theorem claim_C2 :
    (jfes_parse_to_value ['3'] 1).result = .ok (.jinteger 3) ∧
    (jfes_parse_to_value ['3', '.', '0'] 3).result.map jfes_value_type =
      .ok .jfes_double ∧
    (jfes_parse_to_value ['3', 'e', '1'] 3).result.map jfes_value_type =
      .ok .jfes_double ∧
    (∀ (json : List Char) (tokens : List jfes_token_t) (fuel i : Nat)
        (t : jfes_token_t), tokens[i]? = some t → t.type = .jfes_integer →
      (jfes_build_value json tokens (fuel + 1) i).1.map
          (fun p => jfes_value_type p.1) = .ok .jfes_integer) ∧
    (∀ (json : List Char) (tokens : List jfes_token_t) (fuel i : Nat)
        (t : jfes_token_t), tokens[i]? = some t → t.type = .jfes_double →
      (jfes_build_value json tokens (fuel + 1) i).1.map
          (fun p => jfes_value_type p.1) = .ok .jfes_double) := by
  refine ⟨rfl, rfl, rfl, ?_, ?_⟩
  · intro json tokens fuel i t h1 h2
    rw [jfes_build_value_integer json tokens fuel i t h1 h2]
    rfl
  · intro json tokens fuel i t h1 h2
    rw [jfes_build_value_double json tokens fuel i t h1 h2]
    rfl

/-- Witness for claim C2: a concrete Integer-typed token over the text
`3.5` still builds an Integer value — the text is not re-examined. -/
theorem claim_C2_witness :
    (([(⟨.jfes_integer, 0, 3, 0⟩ : jfes_token_t)] : List jfes_token_t)[0]? =
        some ⟨.jfes_integer, 0, 3, 0⟩) ∧
    (jfes_build_value ['3', '.', '5'] [⟨.jfes_integer, 0, 3, 0⟩] 1 0).1.map
        (fun p => jfes_value_type p.1) = .ok .jfes_integer :=
  ⟨by decide, claim_C2.2.2.2.1 ['3', '.', '5'] [⟨.jfes_integer, 0, 3, 0⟩] 0 0
    ⟨.jfes_integer, 0, 3, 0⟩ (by decide) rfl⟩

/-- Claim C3: the quoted source text `"a\nb"` (backslash-n escape) builds a
String value whose content is the three bytes `a`, line feed, `b`; and in
general the owned unescaped buffer of a string is never larger than its
escaped source span. -/
theorem claim_C3 :
    (jfes_parse_to_value ['\"', 'a', '\\', 'n', 'b', '\"'] 6).result =
      .ok (.jstring ⟨['a', '\n', 'b'], 3⟩) ∧
    (∀ src : List Char, (jfes_unescape_string src).size ≤ src.length) ∧
    (∀ (json : List Char) (tokens : List jfes_token_t) (fuel i : Nat)
        (t : jfes_token_t), tokens[i]? = some t → t.type = .jfes_string →
      ∃ s : jfes_string_t,
        (jfes_build_value json tokens (fuel + 1) i).1 =
          .ok (.jstring s, i + 1) ∧ s.size ≤ (t.end_ - t.start).toNat) := by
  refine ⟨rfl, ?_, ?_⟩
  · intro src
    simpa [jfes_unescape_string] using jfes_unescape_length_le src.length src
  · intro json tokens fuel i t h1 h2
    refine ⟨jfes_unescape_string (jfes_token_span json t), ?_, ?_⟩
    · rw [jfes_build_value_string json tokens fuel i t h1 h2]
    · calc (jfes_unescape_string (jfes_token_span json t)).size
          ≤ (jfes_token_span json t).length := by
            simpa [jfes_unescape_string] using
              jfes_unescape_length_le (jfes_token_span json t).length
                (jfes_token_span json t)
        _ ≤ (t.end_ - t.start).toNat := jfes_token_span_length_le json t

/-- Witness for claim C3: the string token of the `"a\nb"` input (content
span `[1, 5)`) builds an owned string of size 3, within the span of 4. -/
theorem claim_C3_witness :
    (([(⟨.jfes_string, 1, 5, 0⟩ : jfes_token_t)] : List jfes_token_t)[0]? =
        some ⟨.jfes_string, 1, 5, 0⟩) ∧
    ∃ s : jfes_string_t,
      (jfes_build_value ['\"', 'a', '\\', 'n', 'b', '\"']
          [⟨.jfes_string, 1, 5, 0⟩] 1 0).1 = .ok (.jstring s, 0 + 1) ∧
      s.size ≤ ((5 : Int) - 1).toNat :=
  ⟨by decide, claim_C3.2.2 ['\"', 'a', '\\', 'n', 'b', '\"']
    [⟨.jfes_string, 1, 5, 0⟩] 0 0 ⟨.jfes_string, 1, 5, 0⟩ (by decide) rfl⟩

/-- Claim C10: the behavior on the unquoted-key input `\x7ba:1\x7d` is
pinned by the strictness configuration: the strict scan rejects the
bareword `a` with InvalidInput, the lenient scan accepts it; the analyzed
header leaves `JFES_STRICT` disabled, so the shipped default accepts it. -/
theorem claim_C10 :
    (jfes_parse_tokens_core true (some 8192)
        ['\x7b', 'a', ':', '1', '\x7d'] 5).1 = .jfes_invalid_input ∧
    (jfes_parse_tokens_core false (some 8192)
        ['\x7b', 'a', ':', '1', '\x7d'] 5).1 = .jfes_success ∧
    JFES_STRICT = false ∧
    (jfes_parse_tokens ⟨0, 0, -1⟩ ['\x7b', 'a', ':', '1', '\x7d']
        5 false 8).status = .jfes_success ∧
    jfes_primitive_token_type ['a'] = .jfes_undefined := by
  exact ⟨by decide, by decide, rfl, by decide, by decide⟩

/-- Componentwise reading of an equality between builder results. -/
theorem jfes_res_eq {E A : Type} {e1 e2 : Except E A} {a1 a2 r1 r2 : Nat}
    (h : (e1, a1, r1) = (e2, a2, r2)) : e1 = e2 ∧ a1 = a2 ∧ r1 = r2 := by
  refine ⟨congrArg Prod.fst h, ?_, ?_⟩
  · exact congrArg (fun p => p.2.1) h
  · exact congrArg (fun p => p.2.2) h

/-- Allocation accounting of the builder, by mutual induction on the fuel:
a successful build performs exactly the allocator calls one
`jfes_free_value` traversal of the produced value releases (and no releases
of its own), while a failed build releases exactly what it allocated. -/
theorem jfes_build_accounting (fuel : Nat) (json : List Char)
    (tokens : List jfes_token_t) :
    (∀ i v j a r, jfes_build_value json tokens fuel i = (.ok (v, j), a, r) →
      a = jfes_free_releases v ∧ r = 0) ∧
    (∀ i e a r, jfes_build_value json tokens fuel i = (.error e, a, r) →
      r = a) ∧
    (∀ n i vs j a r,
      jfes_build_items json tokens fuel n i = (.ok (vs, j), a, r) →
      a = jfes_free_items vs ∧ r = 0) ∧
    (∀ n i e a r, jfes_build_items json tokens fuel n i = (.error e, a, r) →
      r = a) ∧
    (∀ n i ps j a r,
      jfes_build_pairs json tokens fuel n i = (.ok (ps, j), a, r) →
      a = jfes_free_pairs ps ∧ r = 0) ∧
    (∀ n i e a r, jfes_build_pairs json tokens fuel n i = (.error e, a, r) →
      r = a) := by
  induction fuel with
  | zero =>
    refine ⟨fun i v j a r h => ?_, fun i e a r h => ?_,
           fun n i vs j a r h => ?_, fun n i e a r h => ?_,
           fun n i ps j a r h => ?_, fun n i e a r h => ?_⟩ <;>
      simp only [jfes_build_value, jfes_build_items, jfes_build_pairs] at h <;>
      obtain ⟨he, ha, hr⟩ := jfes_res_eq h <;>
      first
        | exact Except.noConfusion he
        | omega
  | succ m ih =>
    obtain ⟨ihvo, ihve, ihio, ihie, ihpo, ihpe⟩ := ih
    refine ⟨?_, ?_, ?_, ?_, ?_, ?_⟩
    · intro i v j a r h
      simp only [jfes_build_value] at h
      split at h
      · obtain ⟨he, _, _⟩ := jfes_res_eq h
        exact Except.noConfusion he
      · split at h
        · obtain ⟨he, _, _⟩ := jfes_res_eq h
          exact Except.noConfusion he
        · obtain ⟨he, ha, hr⟩ := jfes_res_eq h
          injection he with he2
          obtain ⟨hv, hj⟩ := Prod.mk.inj he2
          subst hv; subst ha; subst hr
          simp [jfes_free_releases]
        · obtain ⟨he, ha, hr⟩ := jfes_res_eq h
          injection he with he2
          obtain ⟨hv, hj⟩ := Prod.mk.inj he2
          subst hv; subst ha; subst hr
          simp [jfes_free_releases]
        · obtain ⟨he, ha, hr⟩ := jfes_res_eq h
          injection he with he2
          obtain ⟨hv, hj⟩ := Prod.mk.inj he2
          subst hv; subst ha; subst hr
          simp [jfes_free_releases]
        · obtain ⟨he, ha, hr⟩ := jfes_res_eq h
          injection he with he2
          obtain ⟨hv, hj⟩ := Prod.mk.inj he2
          subst hv; subst ha; subst hr
          simp [jfes_free_releases]
        · split at h
          · rename_i items j' a' r' heq
            obtain ⟨he, ha, hr⟩ := jfes_res_eq h
            injection he with he2
            obtain ⟨hv, hj⟩ := Prod.mk.inj he2
            obtain ⟨ha', hr'⟩ := ihio _ _ _ _ _ _ heq
            subst hv
            simp only [jfes_free_releases]
            omega
          · obtain ⟨he, _, _⟩ := jfes_res_eq h
            exact Except.noConfusion he
        · split at h
          · rename_i ps j' a' r' heq
            obtain ⟨he, ha, hr⟩ := jfes_res_eq h
            injection he with he2
            obtain ⟨hv, hj⟩ := Prod.mk.inj he2
            obtain ⟨ha', hr'⟩ := ihpo _ _ _ _ _ _ heq
            subst hv
            simp only [jfes_free_releases]
            omega
          · obtain ⟨he, _, _⟩ := jfes_res_eq h
            exact Except.noConfusion he
    · intro i e a r h
      simp only [jfes_build_value] at h
      split at h
      · obtain ⟨he, ha, hr⟩ := jfes_res_eq h
        omega
      · split at h
        · obtain ⟨he, ha, hr⟩ := jfes_res_eq h
          omega
        · obtain ⟨he, _, _⟩ := jfes_res_eq h
          exact Except.noConfusion he
        · obtain ⟨he, _, _⟩ := jfes_res_eq h
          exact Except.noConfusion he
        · obtain ⟨he, _, _⟩ := jfes_res_eq h
          exact Except.noConfusion he
        · obtain ⟨he, _, _⟩ := jfes_res_eq h
          exact Except.noConfusion he
        · split at h
          · obtain ⟨he, _, _⟩ := jfes_res_eq h
            exact Except.noConfusion he
          · rename_i e' a' r' heq
            obtain ⟨he, ha, hr⟩ := jfes_res_eq h
            have := ihie _ _ _ _ _ heq
            omega
        · split at h
          · obtain ⟨he, _, _⟩ := jfes_res_eq h
            exact Except.noConfusion he
          · rename_i e' a' r' heq
            obtain ⟨he, ha, hr⟩ := jfes_res_eq h
            have := ihpe _ _ _ _ _ heq
            omega
    · intro n i vs j a r h
      cases n with
      | zero =>
        simp only [jfes_build_items] at h
        obtain ⟨he, ha, hr⟩ := jfes_res_eq h
        injection he with he2
        obtain ⟨hv, hj⟩ := Prod.mk.inj he2
        subst hv; subst ha; subst hr
        simp [jfes_free_items]
      | succ n' =>
        simp only [jfes_build_items] at h
        split at h
        · rename_i v' j' a' r' heq
          split at h
          · rename_i vs' k a'' r'' heq2
            obtain ⟨he, ha, hr⟩ := jfes_res_eq h
            injection he with he2
            obtain ⟨hv, hj⟩ := Prod.mk.inj he2
            obtain ⟨h1, h2⟩ := ihvo _ _ _ _ _ heq
            obtain ⟨h3, h4⟩ := ihio _ _ _ _ _ _ heq2
            subst hv
            simp only [jfes_free_items]
            omega
          · obtain ⟨he, _, _⟩ := jfes_res_eq h
            exact Except.noConfusion he
        · obtain ⟨he, _, _⟩ := jfes_res_eq h
          exact Except.noConfusion he
    · intro n i e a r h
      cases n with
      | zero =>
        simp only [jfes_build_items] at h
        obtain ⟨he, _, _⟩ := jfes_res_eq h
        exact Except.noConfusion he
      | succ n' =>
        simp only [jfes_build_items] at h
        split at h
        · rename_i v' j' a' r' heq
          split at h
          · obtain ⟨he, _, _⟩ := jfes_res_eq h
            exact Except.noConfusion he
          · rename_i e' a'' r'' heq2
            obtain ⟨he, ha, hr⟩ := jfes_res_eq h
            obtain ⟨h1, h2⟩ := ihvo _ _ _ _ _ heq
            have h3 := ihie _ _ _ _ _ heq2
            omega
        · rename_i e' a' r' heq
          obtain ⟨he, ha, hr⟩ := jfes_res_eq h
          have h1 := ihve _ _ _ _ heq
          omega
    · intro n i ps j a r h
      cases n with
      | zero =>
        simp only [jfes_build_pairs] at h
        obtain ⟨he, ha, hr⟩ := jfes_res_eq h
        injection he with he2
        obtain ⟨hv, hj⟩ := Prod.mk.inj he2
        subst hv; subst ha; subst hr
        simp [jfes_free_pairs]
      | succ n' =>
        simp only [jfes_build_pairs] at h
        split at h
        · obtain ⟨he, _, _⟩ := jfes_res_eq h
          exact Except.noConfusion he
        · split at h
          · split at h
            · rename_i v' j' a' r' heq
              split at h
              · rename_i ps' k a'' r'' heq2
                obtain ⟨he, ha, hr⟩ := jfes_res_eq h
                injection he with he2
                obtain ⟨hv, hj⟩ := Prod.mk.inj he2
                obtain ⟨h1, h2⟩ := ihvo _ _ _ _ _ heq
                obtain ⟨h3, h4⟩ := ihpo _ _ _ _ _ _ heq2
                subst hv
                simp only [jfes_free_pairs]
                omega
              · obtain ⟨he, _, _⟩ := jfes_res_eq h
                exact Except.noConfusion he
            · obtain ⟨he, _, _⟩ := jfes_res_eq h
              exact Except.noConfusion he
          · obtain ⟨he, _, _⟩ := jfes_res_eq h
            exact Except.noConfusion he
          · obtain ⟨he, _, _⟩ := jfes_res_eq h
            exact Except.noConfusion he
    · intro n i e a r h
      cases n with
      | zero =>
        simp only [jfes_build_pairs] at h
        obtain ⟨he, _, _⟩ := jfes_res_eq h
        exact Except.noConfusion he
      | succ n' =>
        simp only [jfes_build_pairs] at h
        split at h
        · obtain ⟨he, ha, hr⟩ := jfes_res_eq h
          omega
        · split at h
          · split at h
            · rename_i v' j' a' r' heq
              split at h
              · obtain ⟨he, _, _⟩ := jfes_res_eq h
                exact Except.noConfusion he
              · rename_i e' a'' r'' heq2
                obtain ⟨he, ha, hr⟩ := jfes_res_eq h
                obtain ⟨h1, h2⟩ := ihvo _ _ _ _ _ heq
                have h3 := ihpe _ _ _ _ _ heq2
                omega
            · rename_i e' a' r' heq
              obtain ⟨he, ha, hr⟩ := jfes_res_eq h
              have h1 := ihve _ _ _ _ heq
              omega
          · obtain ⟨he, ha, hr⟩ := jfes_res_eq h
            omega
          · obtain ⟨he, ha, hr⟩ := jfes_res_eq h
            omega

/-- Claim C6: whenever `jfes_parse_to_value` fails, every allocation made in
the failed call has been released again through the injected deallocator
before the error status is returned (the released count equals the
allocated count), and no value is produced. -/
theorem claim_C6 (json : List Char) (length : Nat) (e : jfes_status_t)
    (h : (jfes_parse_to_value json length).result = .error e) :
    (jfes_parse_to_value json length).released =
      (jfes_parse_to_value json length).allocated := by
  rcases hcore : jfes_parse_tokens_core JFES_STRICT
    (some JFES_MAX_TOKENS_COUNT) json length with ⟨st, n, toks⟩
  by_cases hst : st = .jfes_success
  · subst hst
    rcases hbuild : jfes_build_value json toks (2 * n + 2) 0 with ⟨res, a, r⟩
    cases res with
    | ok p =>
      exfalso
      rw [jfes_parse_to_value] at h
      rw [hcore] at h
      simp only [ne_eq, reduceIte] at h
      rw [hbuild] at h
      simp at h
    | error e' =>
      have hacc := (jfes_build_accounting (2 * n + 2) json toks).2.1
        0 e' a r hbuild
      rw [jfes_parse_to_value]
      rw [hcore]
      simp only [ne_eq, reduceIte]
      rw [hbuild]
      simpa using hacc
  · rw [jfes_parse_to_value]
    rw [hcore]
    simp [hst]

/-- Witness for claim C6: the input `\x7b"k":1,2:3\x7d` tokenizes but fails
to build (the second key is an Integer token); the five allocations made
for the first pair and the object shells are all released again. -/
theorem claim_C6_witness :
    ((jfes_parse_to_value
        ['\x7b', '\"', 'k', '\"', ':', '1', ',', '2', ':', '3', '\x7d']
        11).result = .error .jfes_invalid_input) ∧
    (jfes_parse_to_value
        ['\x7b', '\"', 'k', '\"', ':', '1', ',', '2', ':', '3', '\x7d']
        11).released =
      (jfes_parse_to_value
        ['\x7b', '\"', 'k', '\"', ':', '1', ',', '2', ':', '3', '\x7d']
        11).allocated :=
  ⟨rfl, claim_C6 ['\x7b', '\"', 'k', '\"', ':', '1', ',', '2', ':', '3', '\x7d']
    11 .jfes_invalid_input rfl⟩

/-- Claim C7: for every value tree successfully built, one `jfes_free_value`
call releases exactly as many blocks as the build allocated (and the build
itself released nothing); freeing an Undefined (already cleared) value is a
successful no-op. -/
theorem claim_C7 :
    (∀ (json : List Char) (length : Nat) (v : jfes_value_t),
      (jfes_parse_to_value json length).result = .ok v →
      (jfes_free_value v).2 = (jfes_parse_to_value json length).allocated ∧
      (jfes_parse_to_value json length).released = 0) ∧
    jfes_free_value .jundefined = (.jfes_success, 0) := by
  refine ⟨?_, rfl⟩
  intro json length v h
  rcases hcore : jfes_parse_tokens_core JFES_STRICT
    (some JFES_MAX_TOKENS_COUNT) json length with ⟨st, n, toks⟩
  by_cases hst : st = .jfes_success
  · subst hst
    rcases hbuild : jfes_build_value json toks (2 * n + 2) 0 with ⟨res, a, r⟩
    cases res with
    | ok p =>
      have hacc := (jfes_build_accounting (2 * n + 2) json toks).1
        0 p.1 p.2 a r (by rw [hbuild])
      rw [jfes_parse_to_value] at h ⊢
      rw [hcore] at h ⊢
      simp only [ne_eq, reduceIte] at h ⊢
      rw [hbuild] at h ⊢
      simp only at h ⊢
      have hv : p.1 = v := by
        simpa using h
      subst hv
      simp [jfes_free_value]
      omega
    | error e' =>
      exfalso
      rw [jfes_parse_to_value] at h
      rw [hcore] at h
      simp only [ne_eq, reduceIte] at h
      rw [hbuild] at h
      simp at h
  · exfalso
    rw [jfes_parse_to_value] at h
    rw [hcore] at h
    simp [hst] at h

/-- Witness for claim C7: the tree built from `\x7b"a":1\x7d` allocates five
blocks (object record, pair buffer, pair record, key buffer, value record)
and one free traversal releases exactly five. -/
theorem claim_C7_witness :
    ((jfes_parse_to_value ['\x7b', '\"', 'a', '\"', ':', '1', '\x7d']
        7).result =
      .ok (.jobject (.cons ⟨['a'], 1⟩ (.jinteger 1) .nil))) ∧
    (jfes_free_value (.jobject (.cons ⟨['a'], 1⟩ (.jinteger 1) .nil))).2 =
      (jfes_parse_to_value ['\x7b', '\"', 'a', '\"', ':', '1', '\x7d']
        7).allocated ∧
    (jfes_parse_to_value ['\x7b', '\"', 'a', '\"', ':', '1', '\x7d']
        7).released = 0 :=
  ⟨rfl,
   (claim_C7.1 ['\x7b', '\"', 'a', '\"', ':', '1', '\x7d'] 7
     (.jobject (.cons ⟨['a'], 1⟩ (.jinteger 1) .nil)) rfl).1,
   (claim_C7.1 ['\x7b', '\"', 'a', '\"', ':', '1', '\x7d'] 7
     (.jobject (.cons ⟨['a'], 1⟩ (.jinteger 1) .nil)) rfl).2⟩

/-- Componentwise reading of an equality between scan-step payloads. -/
theorem jfes_triple_eq {A B C : Type} {x1 x2 : A} {y1 y2 : B} {z1 z2 : C}
    (h : (x1, y1, z1) = (x2, y2, z2)) : x1 = x2 ∧ y1 = y2 ∧ z1 = z2 := by
  refine ⟨congrArg Prod.fst h, ?_, ?_⟩
  · exact congrArg (fun p => p.2.1) h
  · exact congrArg (fun p => p.2.2) h

/-- Incrementing a parent size never changes how many tokens are stored. -/
theorem jfes_inc_parent_rts_length (rts : List jfes_token_t) (sup : Int) :
    (jfes_inc_parent_rts rts sup).length = rts.length := by
  simp only [jfes_inc_parent_rts]
  split
  · rfl
  · split
    · rfl
    · split
      · simp
      · rfl

/-- A successful allocation always yields the pushed state, for every
capacity. -/
theorem jfes_alloc_token_ok (cap : Option Nat) (st : jfes_scan_state)
    (t : jfes_token_t) (st1 : jfes_scan_state)
    (h : jfes_alloc_token cap st t = .ok st1) :
    st1 = ⟨t :: jfes_inc_parent_rts st.rts st.superior, st.superior⟩ := by
  unfold jfes_alloc_token at h
  match cap with
  | none => exact (Except.ok.inj h).symm
  | some limit =>
    dsimp only at h
    by_cases hl : limit ≤ st.rts.length
    · rw [if_pos hl] at h
      exact Except.noConfusion h
    · rw [if_neg hl] at h
      exact (Except.ok.inj h).symm

/-- A bounded allocation either hits the capacity or behaves like the
unbounded one. -/
theorem jfes_alloc_token_some (cap' : Nat) (st : jfes_scan_state)
    (t : jfes_token_t) :
    jfes_alloc_token (some cap') st t =
      (if cap' ≤ st.rts.length then .error .jfes_no_memory
       else jfes_alloc_token none st t) := rfl

/-- One scan step under a bounded capacity, compared with the same step of
the count-only (unbounded) pass: a step that stays within the buffer is
identical, a step that would need one more slot than the buffer has fails
with NoMemory, and failures of the unbounded step are reproduced verbatim.
A step grows the token store by at most one. -/
theorem jfes_scan_step_cap (strict : Bool) (cap' length : Nat) (c : Char)
    (rest : List Char) (pos : Nat) (st : jfes_scan_state)
    (hlen : st.rts.length ≤ cap') :
    (∀ rem pos' st',
      jfes_scan_step strict none length c rest pos st = .ok (rem, pos', st') →
      st.rts.length ≤ st'.rts.length ∧
      st'.rts.length ≤ st.rts.length + 1 ∧
      jfes_scan_step strict (some cap') length c rest pos st =
        (if st'.rts.length ≤ cap' then .ok (rem, pos', st')
         else .error .jfes_no_memory)) ∧
    (∀ e, jfes_scan_step strict none length c rest pos st = .error e →
      jfes_scan_step strict (some cap') length c rest pos st = .error e) := by
  by_cases hw : jfes_is_whitespace c = true
  · constructor
    · intro rem pos' st' h
      simp only [jfes_scan_step, if_pos hw] at h
      obtain ⟨h1, h2, h3⟩ := jfes_triple_eq (Except.ok.inj h)
      subst h1; subst h2; subst h3
      refine ⟨Nat.le_refl _, Nat.le_succ _, ?_⟩
      rw [if_pos hlen]
      simp only [jfes_scan_step, if_pos hw]
    · intro e h
      simp only [jfes_scan_step, if_pos hw] at h
      exact Except.noConfusion h
  · by_cases hob : c = '{' ∨ c = '['
    · constructor
      · intro rem pos' st' h
        simp only [jfes_scan_step, if_neg hw, if_pos hob,
          jfes_alloc_token] at h
        obtain ⟨h1, h2, h3⟩ := jfes_triple_eq (Except.ok.inj h)
        subst h1; subst h2; subst h3
        refine ⟨?_, ?_, ?_⟩
        · simp [jfes_inc_parent_rts_length]
        · simp [jfes_inc_parent_rts_length]
        · by_cases hc : cap' ≤ st.rts.length
          · rw [if_neg (by simp [jfes_inc_parent_rts_length]; omega)]
            simp only [jfes_scan_step, if_neg hw, if_pos hob,
              jfes_alloc_token, if_pos hc]
          · rw [if_pos (by simp [jfes_inc_parent_rts_length]; omega)]
            simp only [jfes_scan_step, if_neg hw, if_pos hob,
              jfes_alloc_token, if_neg hc]
      · intro e h
        simp only [jfes_scan_step, if_neg hw, if_pos hob,
          jfes_alloc_token] at h
        exact Except.noConfusion h
    · by_cases hcb : c = '}' ∨ c = ']'
      · have hsame : jfes_scan_step strict (some cap') length c rest pos st =
            jfes_scan_step strict none length c rest pos st := by
          simp only [jfes_scan_step, if_neg hw, if_neg hob, if_pos hcb]
        constructor
        · intro rem pos' st' h
          have hl2 : st'.rts.length = st.rts.length := by
            simp only [jfes_scan_step, if_neg hw, if_neg hob,
              if_pos hcb] at h
            split at h
            · exact Except.noConfusion h
            · split at h
              · exact Except.noConfusion h
              · split at h
                · split at h
                  · exact Except.noConfusion h
                  · obtain ⟨h1, h2, h3⟩ := jfes_triple_eq (Except.ok.inj h)
                    rw [← h3]
                    simp
                · split at h
                  · exact Except.noConfusion h
                  · obtain ⟨h1, h2, h3⟩ := jfes_triple_eq (Except.ok.inj h)
                    rw [← h3]
                    simp
          refine ⟨by omega, by omega, ?_⟩
          rw [hsame, if_pos (by omega)]
          exact h
        · intro e h
          rw [hsame]
          exact h
      · by_cases hq : c = '\"'
        · rcases hscan : jfes_scan_string length rest (pos + 1) with e1 | p1
          · constructor
            · intro rem pos' st' h
              simp only [jfes_scan_step, if_neg hw, if_neg hob, if_neg hcb,
                if_pos hq, hscan] at h
              exact Except.noConfusion h
            · intro e h
              simp only [jfes_scan_step, if_neg hw, if_neg hob, if_neg hcb,
                if_pos hq, hscan] at h
              simp only [jfes_scan_step, if_neg hw, if_neg hob, if_neg hcb,
                if_pos hq, hscan]
              exact h
          · rcases p1 with ⟨closePos, rest'⟩
            constructor
            · intro rem pos' st' h
              simp only [jfes_scan_step, if_neg hw, if_neg hob, if_neg hcb,
                if_pos hq, hscan, jfes_alloc_token] at h
              obtain ⟨h1, h2, h3⟩ := jfes_triple_eq (Except.ok.inj h)
              subst h1; subst h2; subst h3
              refine ⟨?_, ?_, ?_⟩
              · simp [jfes_inc_parent_rts_length]
              · simp [jfes_inc_parent_rts_length]
              · by_cases hc : cap' ≤ st.rts.length
                · rw [if_neg (by simp [jfes_inc_parent_rts_length]; omega)]
                  simp only [jfes_scan_step, if_neg hw, if_neg hob,
                    if_neg hcb, if_pos hq, hscan, jfes_alloc_token, if_pos hc]
                · rw [if_pos (by simp [jfes_inc_parent_rts_length]; omega)]
                  simp only [jfes_scan_step, if_neg hw, if_neg hob,
                    if_neg hcb, if_pos hq, hscan, jfes_alloc_token, if_neg hc]
            · intro e h
              simp only [jfes_scan_step, if_neg hw, if_neg hob, if_neg hcb,
                if_pos hq, hscan, jfes_alloc_token] at h
              exact Except.noConfusion h
        · by_cases hcol : c = ':'
          · constructor
            · intro rem pos' st' h
              simp only [jfes_scan_step, if_neg hw, if_neg hob, if_neg hcb,
                if_neg hq, if_pos hcol] at h
              obtain ⟨h1, h2, h3⟩ := jfes_triple_eq (Except.ok.inj h)
              subst h1; subst h2
              have hl2 : st'.rts.length = st.rts.length := by
                rw [← h3]
              refine ⟨by omega, by omega, ?_⟩
              rw [if_pos (by omega), ← h3]
              simp only [jfes_scan_step, if_neg hw, if_neg hob, if_neg hcb,
                if_neg hq, if_pos hcol]
            · intro e h
              simp only [jfes_scan_step, if_neg hw, if_neg hob, if_neg hcb,
                if_neg hq, if_pos hcol] at h
              exact Except.noConfusion h
          · by_cases hcom : c = ','
            · have hsame :
                  jfes_scan_step strict (some cap') length c rest pos st =
                  jfes_scan_step strict none length c rest pos st := by
                simp only [jfes_scan_step, if_neg hw, if_neg hob, if_neg hcb,
                  if_neg hq, if_neg hcol, if_pos hcom]
              constructor
              · intro rem pos' st' h
                have hl2 : st'.rts.length = st.rts.length := by
                  simp only [jfes_scan_step, if_neg hw, if_neg hob,
                    if_neg hcb, if_neg hq, if_neg hcol, if_pos hcom] at h
                  split at h
                  · obtain ⟨h1, h2, h3⟩ := jfes_triple_eq (Except.ok.inj h)
                    rw [← h3]
                  · obtain ⟨h1, h2, h3⟩ := jfes_triple_eq (Except.ok.inj h)
                    rw [← h3]
                refine ⟨by omega, by omega, ?_⟩
                rw [hsame, if_pos (by omega)]
                exact h
              · intro e h
                rw [hsame]
                exact h
            · constructor
              · intro rem pos' st' h
                simp only [jfes_scan_step, if_neg hw, if_neg hob, if_neg hcb,
                  if_neg hq, if_neg hcol, if_neg hcom] at h
                split at h
                · exact Except.noConfusion h
                · rename_i hcond
                  simp only [jfes_alloc_token] at h
                  obtain ⟨h1, h2, h3⟩ := jfes_triple_eq (Except.ok.inj h)
                  subst h1; subst h2; subst h3
                  refine ⟨?_, ?_, ?_⟩
                  · simp [jfes_inc_parent_rts_length]
                  · simp [jfes_inc_parent_rts_length]
                  · by_cases hc : cap' ≤ st.rts.length
                    · rw [if_neg (by simp [jfes_inc_parent_rts_length]; omega)]
                      simp only [jfes_scan_step, if_neg hw, if_neg hob,
                        if_neg hcb, if_neg hq, if_neg hcol, if_neg hcom]
                      rw [if_neg hcond]
                      simp only [jfes_alloc_token, if_pos hc]
                    · rw [if_pos (by simp [jfes_inc_parent_rts_length]; omega)]
                      simp only [jfes_scan_step, if_neg hw, if_neg hob,
                        if_neg hcb, if_neg hq, if_neg hcol, if_neg hcom]
                      rw [if_neg hcond]
                      simp only [jfes_alloc_token, if_neg hc]
              · intro e h
                simp only [jfes_scan_step, if_neg hw, if_neg hob, if_neg hcb,
                  if_neg hq, if_neg hcol, if_neg hcom] at h
                simp only [jfes_scan_step, if_neg hw, if_neg hob, if_neg hcb,
                  if_neg hq, if_neg hcol, if_neg hcom]
                split at h
                · rename_i hcond
                  rw [if_pos hcond]
                  exact h
                · rename_i hcond
                  simp only [jfes_alloc_token] at h
                  exact Except.noConfusion h

/-- Finalizing returns the state unchanged when it succeeds. -/
theorem jfes_scan_finalize_ok (st final : jfes_scan_state)
    (h : jfes_scan_finalize st = .ok final) : final = st := by
  unfold jfes_scan_finalize at h
  split at h
  · exact Except.noConfusion h
  · exact (Except.ok.inj h).symm

/-- The count-only scan never shrinks the token store. -/
theorem jfes_scan_loop_mono (strict : Bool) (length : Nat) :
    ∀ (fuel : Nat) (rem : List Char) (pos : Nat) (st final : jfes_scan_state),
      jfes_scan_loop strict none length fuel rem pos st = .ok final →
      st.rts.length ≤ final.rts.length := by
  intro fuel
  induction fuel with
  | zero =>
    intro rem pos st final h
    simp [jfes_scan_loop] at h
  | succ m ih =>
    intro rem pos st final h
    simp only [jfes_scan_loop] at h
    split at h
    · rw [jfes_scan_finalize_ok st final h]
    · split at h
      · rw [jfes_scan_finalize_ok st final h]
      · rename_i c rest
        split at h
        · rename_i r heq
          have hstep := ((jfes_scan_step_cap strict st.rts.length length c
            rest pos st (Nat.le_refl _)).1 r.1 r.2.1 r.2.2 heq).1
          have htail := ih r.1 r.2.1 r.2.2 final h
          omega
        · exact Except.noConfusion h

/-- The bounded scan, compared with the count-only scan: when the count-only
pass succeeds with a final state that fits the buffer, the bounded pass
produces exactly that state; when the final state needs more slots than the
buffer has, the bounded pass fails with NoMemory. -/
theorem jfes_scan_loop_cap (strict : Bool) (cap' length : Nat) :
    ∀ (fuel : Nat) (rem : List Char) (pos : Nat) (st final : jfes_scan_state),
      jfes_scan_loop strict none length fuel rem pos st = .ok final →
      st.rts.length ≤ cap' →
      jfes_scan_loop strict (some cap') length fuel rem pos st =
        (if final.rts.length ≤ cap' then .ok final
         else .error .jfes_no_memory) := by
  intro fuel
  induction fuel with
  | zero =>
    intro rem pos st final h _
    simp [jfes_scan_loop] at h
  | succ m ih =>
    intro rem pos st final h hlen
    simp only [jfes_scan_loop] at h ⊢
    split at h
    · rename_i hpos
      rw [if_pos hpos]
      have hfs := jfes_scan_finalize_ok st final h
      rw [if_pos (by rw [hfs]; exact hlen)]
      exact h
    · rename_i hpos
      rw [if_neg hpos]
      split at h
      · have hfs := jfes_scan_finalize_ok st final h
        rw [if_pos (by rw [hfs]; exact hlen)]
        exact h
      · rename_i c rest
        split at h
        · rename_i r heq
          have hstep := (jfes_scan_step_cap strict cap' length c
            rest pos st hlen).1 r.1 r.2.1 r.2.2 heq
          obtain ⟨hg1, hg2, hsome⟩ := hstep
          by_cases hr : r.2.2.rts.length ≤ cap'
          · rw [hsome, if_pos hr]
            exact ih r.1 r.2.1 r.2.2 final h hr
          · rw [hsome, if_neg hr]
            have hmono := jfes_scan_loop_mono strict length m
              r.1 r.2.1 r.2.2 final h
            rw [if_neg (by omega)]
        · exact Except.noConfusion h

/-- A failing string scan reports ErrorPart or InvalidInput, never the
Success status. -/
theorem jfes_scan_string_err (length : Nat) :
    ∀ (k : Nat) (rem : List Char) (pos : Nat) (e : jfes_status_t),
      rem.length ≤ k → jfes_scan_string length rem pos = .error e →
      e = .jfes_error_part ∨ e = .jfes_invalid_input := by
  intro k
  induction k with
  | zero =>
    intro rem pos e
    match rem with
    | [] =>
      intro hk h
      simp only [jfes_scan_string] at h
      exact Or.inl (Except.error.inj h).symm
    | c :: rest =>
      intro hk h
      simp only [List.length_cons] at hk
      omega
  | succ m ih =>
    intro rem pos e
    match rem with
    | [] =>
      intro hk h
      simp only [jfes_scan_string] at h
      exact Or.inl (Except.error.inj h).symm
    | c :: rest =>
      intro hk h
      rw [jfes_scan_string.eq_def] at h
      dsimp only [] at h
      by_cases h1 : length ≤ pos
      · rw [if_pos h1] at h
        exact Or.inl (Except.error.inj h).symm
      · rw [if_neg h1] at h
        by_cases h2 : c = '\"'
        · rw [if_pos h2] at h
          exact Except.noConfusion h
        · rw [if_neg h2] at h
          by_cases h3 : c = '\\'
          · rw [if_pos h3] at h
            match rest with
            | [] =>
              dsimp only [] at h
              exact Or.inl (Except.error.inj h).symm
            | e2 :: rest2 =>
              dsimp only [] at h
              by_cases h4 : length ≤ pos + 1
              · rw [if_pos h4] at h
                exact Or.inl (Except.error.inj h).symm
              · rw [if_neg h4] at h
                by_cases h5 : e2 = 'u'
                · rw [if_pos h5] at h
                  match rest2 with
                  | [] =>
                    dsimp only [] at h
                    exact Or.inl (Except.error.inj h).symm
                  | [a1] =>
                    dsimp only [] at h
                    exact Or.inl (Except.error.inj h).symm
                  | [a1, a2] =>
                    dsimp only [] at h
                    exact Or.inl (Except.error.inj h).symm
                  | [a1, a2, a3] =>
                    dsimp only [] at h
                    exact Or.inl (Except.error.inj h).symm
                  | a1 :: a2 :: a3 :: a4 :: rest3 =>
                    dsimp only [] at h
                    by_cases h6 : length ≤ pos + 5
                    · rw [if_pos h6] at h
                      exact Or.inl (Except.error.inj h).symm
                    · rw [if_neg h6] at h
                      by_cases h7 : jfes_is_hex_digit a1 = true ∧
                          jfes_is_hex_digit a2 = true ∧
                          jfes_is_hex_digit a3 = true ∧
                          jfes_is_hex_digit a4 = true
                      · rw [if_pos h7] at h
                        refine ih rest3 (pos + 6) e ?_ h
                        simp at hk
                        omega
                      · rw [if_neg h7] at h
                        exact Or.inr (Except.error.inj h).symm
                · rw [if_neg h5] at h
                  by_cases h8 : e2 = '\"' ∨ e2 = '/' ∨ e2 = '\\' ∨ e2 = 'b' ∨
                      e2 = 'f' ∨ e2 = 'n' ∨ e2 = 'r' ∨ e2 = 't'
                  · rw [if_pos h8] at h
                    refine ih rest2 (pos + 2) e ?_ h
                    simp at hk
                    omega
                  · rw [if_neg h8] at h
                    exact Or.inr (Except.error.inj h).symm
          · rw [if_neg h3] at h
            refine ih rest (pos + 1) e ?_ h
            simp at hk
            omega

/-- A failing token allocation always reports NoMemory. -/
theorem jfes_alloc_token_err (cap : Option Nat) (st : jfes_scan_state)
    (t : jfes_token_t) (e : jfes_status_t)
    (h : jfes_alloc_token cap st t = .error e) : e = .jfes_no_memory := by
  unfold jfes_alloc_token at h
  match cap with
  | none => exact Except.noConfusion h
  | some limit =>
    dsimp only at h
    by_cases hl : limit ≤ st.rts.length
    · rw [if_pos hl] at h
      exact (Except.error.inj h).symm
    · rw [if_neg hl] at h
      exact Except.noConfusion h

/-- A failing finalize always reports ErrorPart. -/
theorem jfes_scan_finalize_err (st : jfes_scan_state) (e : jfes_status_t)
    (h : jfes_scan_finalize st = .error e) : e = .jfes_error_part := by
  unfold jfes_scan_finalize at h
  split at h
  · exact (Except.error.inj h).symm
  · exact Except.noConfusion h

/-- No scan step ever fails with the Success status. -/
theorem jfes_scan_step_no_success (strict : Bool) (cap : Option Nat)
    (length : Nat) (c : Char) (rest : List Char) (pos : Nat)
    (st : jfes_scan_state) (e : jfes_status_t)
    (h : jfes_scan_step strict cap length c rest pos st = .error e) :
    e ≠ .jfes_success := by
  by_cases hw : jfes_is_whitespace c = true
  · simp only [jfes_scan_step, if_pos hw] at h
    exact Except.noConfusion h
  · by_cases hob : c = '{' ∨ c = '['
    · simp only [jfes_scan_step, if_neg hw, if_pos hob] at h
      split at h
      · rename_i e1 heq
        have h2 := jfes_alloc_token_err cap st _ e1 heq
        have he := Except.error.inj h
        subst he
        rw [h2]
        decide
      · exact Except.noConfusion h
    · by_cases hcb : c = '}' ∨ c = ']'
      · simp only [jfes_scan_step, if_neg hw, if_neg hob, if_pos hcb] at h
        split at h
        · have he := Except.error.inj h
          subst he
          decide
        · split at h
          · have he := Except.error.inj h
            subst he
            decide
          · split at h
            · split at h
              · have he := Except.error.inj h
                subst he
                decide
              · exact Except.noConfusion h
            · split at h
              · have he := Except.error.inj h
                subst he
                decide
              · exact Except.noConfusion h
      · by_cases hq : c = '\"'
        · rcases hscan : jfes_scan_string length rest (pos + 1) with e1 | p1
          · simp only [jfes_scan_step, if_neg hw, if_neg hob, if_neg hcb,
              if_pos hq, hscan] at h
            have he := Except.error.inj h
            subst he
            rcases jfes_scan_string_err length rest.length rest (pos + 1) e1
                (Nat.le_refl _) hscan with h2 | h2 <;> rw [h2] <;> decide
          · simp only [jfes_scan_step, if_neg hw, if_neg hob, if_neg hcb,
              if_pos hq, hscan] at h
            split at h
            · rename_i e1 heq
              have h2 := jfes_alloc_token_err cap st _ e1 heq
              have he := Except.error.inj h
              subst he
              rw [h2]
              decide
            · exact Except.noConfusion h
        · by_cases hcol : c = ':'
          · simp only [jfes_scan_step, if_neg hw, if_neg hob, if_neg hcb,
              if_neg hq, if_pos hcol] at h
            exact Except.noConfusion h
          · by_cases hcom : c = ','
            · simp only [jfes_scan_step, if_neg hw, if_neg hob, if_neg hcb,
                if_neg hq, if_neg hcol, if_pos hcom] at h
              split at h
              · exact Except.noConfusion h
              · exact Except.noConfusion h
            · simp only [jfes_scan_step, if_neg hw, if_neg hob, if_neg hcb,
                if_neg hq, if_neg hcol, if_neg hcom] at h
              split at h
              · have he := Except.error.inj h
                subst he
                decide
              · split at h
                · rename_i e1 heq
                  have h2 := jfes_alloc_token_err cap st _ e1 heq
                  have he := Except.error.inj h
                  subst he
                  rw [h2]
                  decide
                · exact Except.noConfusion h

/-- No scan run ever fails with the Success status. -/
theorem jfes_scan_loop_no_success (strict : Bool) (cap : Option Nat)
    (length : Nat) :
    ∀ (fuel : Nat) (rem : List Char) (pos : Nat) (st : jfes_scan_state)
      (e : jfes_status_t),
      jfes_scan_loop strict cap length fuel rem pos st = .error e →
      e ≠ .jfes_success := by
  intro fuel
  induction fuel with
  | zero =>
    intro rem pos st e h
    simp only [jfes_scan_loop] at h
    have he := Except.error.inj h
    subst he
    decide
  | succ m ih =>
    intro rem pos st e h
    simp only [jfes_scan_loop] at h
    split at h
    · rw [jfes_scan_finalize_err st e h]
      decide
    · split at h
      · rw [jfes_scan_finalize_err st e h]
        decide
      · split at h
        · exact ih _ _ _ _ h
        · rename_i e1 heq
          have he := Except.error.inj h
          subst he
          exact jfes_scan_step_no_success _ _ _ _ _ _ _ _ heq

/-- Bumping the children count of the most recently emitted token. -/
def jfes_bump_head : List jfes_token_t → List jfes_token_t
  | [] => []
  | t :: ts => { t with size := t.size + 1 } :: ts

/-- Setting the element right after a prefix of known length. -/
theorem jfes_set_append {α : Type} (C : List α) (t x : α) (O : List α) :
    (C ++ t :: O).set C.length x = C ++ x :: O := by
  induction C with
  | nil => rfl
  | cons c cs ih => simp [ih]

/-- Element lookup right after a prefix of known length. -/
theorem jfes_get_append {α : Type} (C : List α) (t : α) (O : List α) :
    (C ++ t :: O)[C.length]? = some t := by
  induction C with
  | nil => simp
  | cons c cs ih => simpa using ih

/-- Dropping one element more than a prefix of known length. -/
theorem jfes_drop_append {α : Type} (C : List α) (t : α) (O : List α) :
    (C ++ t :: O).drop (C.length + 1) = O := by
  induction C with
  | nil => rfl
  | cons c cs ih => simpa using ih

/-- The innermost open token sits right after the closed tokens. -/
theorem jfes_find_open_append (C : List jfes_token_t) (t : jfes_token_t)
    (O : List jfes_token_t) (hC : ∀ u ∈ C, ¬u.end_ = -1)
    (ht : t.end_ = -1) : jfes_find_open (C ++ t :: O) = some C.length := by
  induction C with
  | nil => simp [jfes_find_open, ht]
  | cons c cs ih =>
    have hc : ¬c.end_ = -1 := hC c (by simp)
    simp only [List.cons_append, jfes_find_open, if_neg hc, List.append_eq]
    rw [ih (fun u hu => hC u (by simp [hu]))]
    rfl

/-- Finalizing a fully closed token store succeeds. -/
theorem jfes_scan_finalize_closed (C : List jfes_token_t) (sup : Int)
    (hC : ∀ u ∈ C, ¬u.end_ = -1) :
    jfes_scan_finalize ⟨C, sup⟩ = .ok ⟨C, sup⟩ := by
  unfold jfes_scan_finalize
  rw [if_neg]
  intro hany
  simp only [List.any_eq_true, beq_iff_eq] at hany
  obtain ⟨t, htm, hte⟩ := hany
  exact hC t htm hte

/-- One scan step on an opening bracket, when the superior is the most
recently emitted token: the new open Array token is pushed, the previous
head's children count grows, and the new token becomes the superior. -/
theorem jfes_scan_step_open_bracket (strict : Bool) (length : Nat)
    (rest : List Char) (pos : Nat) (st : jfes_scan_state)
    (hsup : st.superior = (st.rts.length : Int) - 1)
    (hall : ∀ t ∈ st.rts, t.type = .jfes_array ∧ t.end_ = -1) :
    jfes_scan_step strict none length '[' rest pos st =
      .ok (rest, pos + 1,
        ⟨⟨.jfes_array, (pos : Int), -1, 0⟩ :: jfes_bump_head st.rts,
         (st.rts.length : Int)⟩) := by
  rw [jfes_scan_step.eq_def]
  rw [if_neg (by decide)]
  rw [if_pos (Or.inr rfl)]
  rw [if_neg (by decide : ¬('[' = '{'))]
  simp only [jfes_alloc_token]
  have hinc : jfes_inc_parent_rts st.rts st.superior = jfes_bump_head st.rts := by
    match hrts : st.rts with
    | [] =>
      rw [jfes_inc_parent_rts]
      rw [if_pos (by rw [hsup, hrts]; decide)]
      rfl
    | t :: ts =>
      rw [jfes_inc_parent_rts]
      rw [if_neg (by rw [hsup, hrts]; simp)]
      have hp : (t :: ts).length - 1 - st.superior.toNat = 0 := by
        rw [hsup, hrts]
        simp
      rw [hp]
      simp only [List.getElem?_cons_zero]
      have hty := (hall t (by rw [hrts]; simp)).1
      rw [if_pos (Or.inl hty)]
      rfl
  rw [hinc]

/-- One scan step on a closing bracket over a store made of finalized tokens
followed by open Array tokens: the innermost open token gets its end offset
and the superior moves outward. -/
theorem jfes_scan_step_close_bracket (strict : Bool) (length : Nat)
    (rest : List Char) (pos : Nat) (C : List jfes_token_t)
    (t : jfes_token_t) (O : List jfes_token_t) (sup : Int)
    (hC : ∀ u ∈ C, ¬u.end_ = -1) (ht : t.end_ = -1)
    (htype : t.type = .jfes_array) :
    jfes_scan_step strict none length ']' rest pos ⟨C ++ t :: O, sup⟩ =
      .ok (rest, pos + 1,
        ⟨C ++ { t with end_ := (pos : Int) + 1 } :: O,
         match jfes_find_open ((C ++ t :: O).drop (C.length + 1)) with
         | some q =>
           ((C ++ t :: O).length : Int) - 1 - ((C.length : Int) + 1 + (q : Int))
         | none => -1⟩) := by
  rw [jfes_scan_step.eq_def]
  rw [if_neg (by decide)]
  rw [if_neg (by decide : ¬(']' = '{' ∨ ']' = '['))]
  rw [if_pos (Or.inr rfl)]
  dsimp only
  rw [jfes_find_open_append C t O hC ht]
  dsimp only
  rw [jfes_get_append C t O]
  dsimp only
  rw [if_neg (by rw [htype]; decide)]
  rw [jfes_set_append C t _ O]

/-- Phase one of the nested-array scan: a run of `m` opening brackets pushes
`m` open Array tokens, keeping the superior at the newest token. -/
theorem jfes_scan_loop_opens (strict : Bool) (length : Nat) :
    ∀ (m : Nat) (st : jfes_scan_state) (pos fuel : Nat) (tail : List Char),
      (∀ t ∈ st.rts, t.type = .jfes_array ∧ t.end_ = -1) →
      st.superior = (st.rts.length : Int) - 1 →
      pos + m ≤ length →
      ∃ st' : jfes_scan_state,
        jfes_scan_loop strict none length (fuel + m)
            (List.replicate m '[' ++ tail) pos st =
          jfes_scan_loop strict none length fuel tail (pos + m) st' ∧
        st'.rts.length = st.rts.length + m ∧
        (∀ t ∈ st'.rts, t.type = .jfes_array ∧ t.end_ = -1) ∧
        st'.superior = (st'.rts.length : Int) - 1 := by
  intro m
  induction m with
  | zero =>
    intro st pos fuel tail hall hsup hpos
    exact ⟨st, by simp, by simp, hall, hsup⟩
  | succ m' ih =>
    intro st pos fuel tail hall hsup hpos
    have hstep := jfes_scan_step_open_bracket strict length
      (List.replicate m' '[' ++ tail) pos st hsup hall
    have hlenb : (jfes_bump_head st.rts).length = st.rts.length := by
      match st.rts with
      | [] => rfl
      | t :: ts => rfl
    have hall' : ∀ t ∈ (⟨⟨.jfes_array, (pos : Int), -1, 0⟩ ::
        jfes_bump_head st.rts, (st.rts.length : Int)⟩ : jfes_scan_state).rts,
        t.type = .jfes_array ∧ t.end_ = -1 := by
      intro t htm
      simp only [List.mem_cons] at htm
      rcases htm with h | h
      · rw [h]
        exact ⟨rfl, rfl⟩
      · match hrts : st.rts, h with
        | u :: us, h =>
          rw [hrts] at hall
          simp only [jfes_bump_head, List.mem_cons] at h
          rcases h with h | h
          · rw [h]
            have := hall u (by simp)
            exact ⟨this.1, this.2⟩
          · exact hall t (by simp [h])
    obtain ⟨st', hloop, hlen', hall2, hsup2⟩ := ih
      ⟨⟨.jfes_array, (pos : Int), -1, 0⟩ :: jfes_bump_head st.rts,
       (st.rts.length : Int)⟩
      (pos + 1) fuel tail hall'
      (by simp [hlenb])
      (by omega)
    refine ⟨st', ?_, ?_, hall2, hsup2⟩
    · have hfuel : fuel + (m' + 1) = (fuel + m') + 1 := by omega
      rw [hfuel]
      rw [jfes_scan_loop.eq_def]
      dsimp only
      rw [if_neg (by omega)]
      simp only [List.replicate_succ, List.cons_append]
      rw [hstep]
      dsimp only
      rw [hloop]
      have : pos + (m' + 1) = pos + 1 + m' := by omega
      rw [this]
    · simp only [List.length_cons, hlenb] at hlen'
      omega

/-- Phase two of the nested-array scan: a run of closing brackets finalizes
every remaining open Array token and the scan succeeds. -/
theorem jfes_scan_loop_closes (strict : Bool) (length : Nat) :
    ∀ (O C : List jfes_token_t) (pos : Nat) (sup : Int),
      (∀ u ∈ C, ¬u.end_ = -1) →
      (∀ t ∈ O, t.type = .jfes_array ∧ t.end_ = -1) →
      pos + O.length = length →
      ∃ st : jfes_scan_state,
        jfes_scan_loop strict none length (O.length + 1)
            (List.replicate O.length ']') pos ⟨C ++ O, sup⟩ = .ok st ∧
        st.rts.length = C.length + O.length := by
  intro O
  induction O with
  | nil =>
    intro C pos sup hC hO hpos
    refine ⟨⟨C, sup⟩, ?_, by simp⟩
    rw [jfes_scan_loop.eq_def]
    dsimp only
    rw [if_pos (by simp at hpos; omega)]
    have hst : (⟨C ++ [], sup⟩ : jfes_scan_state) = ⟨C, sup⟩ := by simp
    rw [hst]
    exact jfes_scan_finalize_closed C sup hC
  | cons t O' ih =>
    intro C pos sup hC hO hpos
    simp only [List.length_cons] at hpos
    have hstep := jfes_scan_step_close_bracket strict length
      (List.replicate O'.length ']') pos C t O' sup hC
      (hO t (by simp)).2 (hO t (by simp)).1
    have hC' : ∀ u ∈ C ++ [{ t with end_ := (pos : Int) + 1 }],
        ¬u.end_ = -1 := by
      intro u hu
      simp only [List.mem_append, List.mem_singleton] at hu
      rcases hu with hu | hu
      · exact hC u hu
      · rw [hu]
        intro hcon
        simp only at hcon
        omega
    obtain ⟨st2, hloop2, hlen2⟩ := ih
      (C ++ [{ t with end_ := (pos : Int) + 1 }]) (pos + 1)
      (match jfes_find_open ((C ++ t :: O').drop (C.length + 1)) with
       | some q =>
         ((C ++ t :: O').length : Int) - 1 -
           ((C.length : Int) + 1 + (q : Int))
       | none => -1)
      hC' (fun u hu => hO u (by simp [hu])) (by omega)
    refine ⟨st2, ?_, ?_⟩
    · rw [jfes_scan_loop.eq_def]
      dsimp only
      rw [if_neg (by omega)]
      simp only [List.length_cons, List.replicate_succ]
      rw [hstep]
      dsimp only
      have hsplit : (C ++ [{ t with end_ := (pos : Int) + 1 }]) ++ O' =
          C ++ { t with end_ := (pos : Int) + 1 } :: O' := by
        simp
      rw [← hsplit]
      exact hloop2
    · simp only [List.length_append, List.length_singleton] at hlen2
      simp only [List.length_cons]
      omega

/-- The `k`-deep nested array input requires exactly `k` tokens: the
count-only tokenizing pass succeeds reporting `k`. -/
theorem jfes_nested_array_tokens (strict : Bool) (k : Nat) :
    ∃ toks : List jfes_token_t,
      jfes_parse_tokens_core strict none
          (List.replicate k '[' ++ List.replicate k ']') (2 * k) =
        (.jfes_success, k, toks) := by
  obtain ⟨st', hloop1, hlen1, hall1, hsup1⟩ :=
    jfes_scan_loop_opens strict (2 * k) k ⟨[], -1⟩ 0 (k + 1)
      (List.replicate k ']') (by simp) (by simp) (by omega)
  simp only [List.length_nil, Nat.zero_add] at hlen1
  obtain ⟨st2, hloop2, hlen2⟩ :=
    jfes_scan_loop_closes strict (2 * k) st'.rts [] k st'.superior
      (by simp) hall1 (by omega)
  simp only [List.length_nil, Nat.zero_add] at hlen2
  refine ⟨st2.rts.reverse, ?_⟩
  unfold jfes_parse_tokens_core
  have hfuel : 2 * k + 1 = (k + 1) + k := by omega
  rw [hfuel, hloop1]
  have hst' : (⟨[] ++ st'.rts, st'.superior⟩ : jfes_scan_state) = st' := by
    simp
  rw [hlen1] at hloop2
  rw [hst'] at hloop2
  simp only [Nat.zero_add] at hloop1 ⊢
  rw [hloop2]
  dsimp only
  rw [hlen2, hlen1]

/-- The whole tokenizing pass under a bounded buffer, compared with the
count-only pass: with enough capacity the results coincide, with less the
pass fails with NoMemory. -/
theorem jfes_parse_tokens_core_cap (strict : Bool) (cap' : Nat)
    (json : List Char) (length n : Nat) (toks : List jfes_token_t)
    (h : jfes_parse_tokens_core strict none json length =
      (.jfes_success, n, toks)) :
    jfes_parse_tokens_core strict (some cap') json length =
      (if n ≤ cap' then (.jfes_success, n, toks)
       else (.jfes_no_memory, 0, [])) := by
  unfold jfes_parse_tokens_core at h ⊢
  split at h
  · rename_i st hloop
    obtain ⟨h1, h2, h3⟩ := jfes_triple_eq h
    have hcap := jfes_scan_loop_cap strict cap' length (length + 1) json 0
      ⟨[], -1⟩ st hloop (by simp)
    rw [hcap]
    by_cases hn : st.rts.length ≤ cap'
    · rw [if_pos hn, if_pos (by omega)]
      dsimp only
      rw [h2, h3]
    · rw [if_neg hn, if_neg (by omega)]
  · rename_i e hloop
    obtain ⟨h1, h2, h3⟩ := jfes_triple_eq h
    exact absurd h1 (jfes_scan_loop_no_success strict none length
      (length + 1) json 0 ⟨[], -1⟩ e hloop)

/-- Claim C4: a null-buffer call of `jfes_parse_tokens` is a pure count-only
pass: repeating it (also through the very parser object the first call
returned) reports the same status and the same count, and the reported
count is exactly the number of tokens a buffer needs — a fill call with
that capacity succeeds and writes that many tokens. -/
theorem claim_C4 :
    (∀ (p : jfes_parser_t) (json : List Char) (length m1 m2 : Nat),
      (jfes_parse_tokens p json length true m1).tokens_count =
        (jfes_parse_tokens
          ((jfes_parse_tokens p json length true m1).parser_out)
          json length true m2).tokens_count ∧
      (jfes_parse_tokens p json length true m1).status =
        (jfes_parse_tokens
          ((jfes_parse_tokens p json length true m1).parser_out)
          json length true m2).status) ∧
    (∀ (p : jfes_parser_t) (json : List Char) (length n : Nat),
      (jfes_parse_tokens p json length true 0).status = .jfes_success →
      (jfes_parse_tokens p json length true 0).tokens_count = n →
      (jfes_parse_tokens p json length false n).status = .jfes_success ∧
      (jfes_parse_tokens p json length false n).tokens_count = n) := by
  constructor
  · intro p json length m1 m2
    exact ⟨rfl, rfl⟩
  · intro p json length n hs hn
    have hcore : jfes_parse_tokens_core JFES_STRICT none json length =
        (.jfes_success, n,
         (jfes_parse_tokens_core JFES_STRICT none json length).2.2) := by
      have h1 : (jfes_parse_tokens_core JFES_STRICT none json length).1 =
          .jfes_success := hs
      have h2 : (jfes_parse_tokens_core JFES_STRICT none json length).2.1 =
          n := hn
      rw [← h1, ← h2]
    have hfill := jfes_parse_tokens_core_cap JFES_STRICT n json length n
      (jfes_parse_tokens_core JFES_STRICT none json length).2.2 hcore
    rw [if_pos (Nat.le_refl n)] at hfill
    constructor
    · show (jfes_parse_tokens_core JFES_STRICT (some n) json length).1 =
        .jfes_success
      rw [hfill]
    · show (jfes_parse_tokens_core JFES_STRICT (some n) json length).2.1 = n
      rw [hfill]

/-- Witness for claim C4: the input `[1]` counts 2 tokens and a 2-slot
buffer fills successfully with 2 tokens. -/
theorem claim_C4_witness :
    ((jfes_parse_tokens ⟨0, 0, -1⟩ ['[', '1', ']'] 3 true 0).status =
        .jfes_success) ∧
    ((jfes_parse_tokens ⟨0, 0, -1⟩ ['[', '1', ']'] 3 true 0).tokens_count =
        2) ∧
    ((jfes_parse_tokens ⟨0, 0, -1⟩ ['[', '1', ']'] 3 false 2).status =
        .jfes_success ∧
      (jfes_parse_tokens ⟨0, 0, -1⟩ ['[', '1', ']'] 3 false 2).tokens_count =
        2) :=
  ⟨by decide, by decide,
   claim_C4.2 ⟨0, 0, -1⟩ ['[', '1', ']'] 3 2 (by decide) (by decide)⟩

/-- Claim C5: a non-null token buffer smaller than the count the input
requires makes `jfes_parse_tokens` fail with NoMemory; and an input that
requires more than the `JFES_MAX_TOKENS_COUNT` ceiling makes
`jfes_parse_to_value` fail with NoMemory. -/
theorem claim_C5 :
    (∀ (p : jfes_parser_t) (json : List Char) (length n cap' : Nat),
      (jfes_parse_tokens p json length true 0).status = .jfes_success →
      (jfes_parse_tokens p json length true 0).tokens_count = n →
      cap' < n →
      (jfes_parse_tokens p json length false cap').status =
        .jfes_no_memory) ∧
    (∀ (json : List Char) (length n : Nat),
      (jfes_parse_tokens ⟨0, 0, -1⟩ json length true 0).status =
        .jfes_success →
      (jfes_parse_tokens ⟨0, 0, -1⟩ json length true 0).tokens_count = n →
      JFES_MAX_TOKENS_COUNT < n →
      (jfes_parse_to_value json length).result =
        .error .jfes_no_memory) := by
  constructor
  · intro p json length n cap' hs hn hlt
    have hcore : jfes_parse_tokens_core JFES_STRICT none json length =
        (.jfes_success, n,
         (jfes_parse_tokens_core JFES_STRICT none json length).2.2) := by
      have h1 : (jfes_parse_tokens_core JFES_STRICT none json length).1 =
          .jfes_success := hs
      have h2 : (jfes_parse_tokens_core JFES_STRICT none json length).2.1 =
          n := hn
      rw [← h1, ← h2]
    have hfill := jfes_parse_tokens_core_cap JFES_STRICT cap' json length n
      (jfes_parse_tokens_core JFES_STRICT none json length).2.2 hcore
    rw [if_neg (by omega)] at hfill
    show (jfes_parse_tokens_core JFES_STRICT (some cap') json length).1 =
      .jfes_no_memory
    rw [hfill]
  · intro json length n hs hn hlt
    have hcore : jfes_parse_tokens_core JFES_STRICT none json length =
        (.jfes_success, n,
         (jfes_parse_tokens_core JFES_STRICT none json length).2.2) := by
      have h1 : (jfes_parse_tokens_core JFES_STRICT none json length).1 =
          .jfes_success := hs
      have h2 : (jfes_parse_tokens_core JFES_STRICT none json length).2.1 =
          n := hn
      rw [← h1, ← h2]
    have hfill := jfes_parse_tokens_core_cap JFES_STRICT
      JFES_MAX_TOKENS_COUNT json length n
      (jfes_parse_tokens_core JFES_STRICT none json length).2.2 hcore
    rw [if_neg (by omega)] at hfill
    unfold jfes_parse_to_value
    rw [hfill]
    rfl

/-- A null-buffer call reports the count-only core status. -/
theorem jfes_parse_tokens_null_status (p : jfes_parser_t) (json : List Char)
    (length m : Nat) :
    (jfes_parse_tokens p json length true m).status =
      (jfes_parse_tokens_core JFES_STRICT none json length).1 := rfl

/-- A null-buffer call reports the count-only core token count. -/
theorem jfes_parse_tokens_null_count (p : jfes_parser_t) (json : List Char)
    (length m : Nat) :
    (jfes_parse_tokens p json length true m).tokens_count =
      (jfes_parse_tokens_core JFES_STRICT none json length).2.1 := rfl

/-- Witness for claim C5: a 1-slot buffer fails on the 2-token input `[1]`
with NoMemory, and the 8193-deep nested array (which requires 8193 tokens,
one above the ceiling) makes `jfes_parse_to_value` fail with NoMemory. -/
theorem claim_C5_witness :
    ((jfes_parse_tokens ⟨0, 0, -1⟩ ['[', '1', ']'] 3 true 0).status =
        .jfes_success ∧
     (jfes_parse_tokens ⟨0, 0, -1⟩ ['[', '1', ']'] 3 true 0).tokens_count =
        2 ∧
     1 < 2 ∧
     (jfes_parse_tokens ⟨0, 0, -1⟩ ['[', '1', ']'] 3 false 1).status =
        .jfes_no_memory) ∧
    (JFES_MAX_TOKENS_COUNT < 8193 ∧
     (jfes_parse_to_value
        (List.replicate 8193 '[' ++ List.replicate 8193 ']')
        (2 * 8193)).result = .error .jfes_no_memory) := by
  constructor
  · refine ⟨by decide, by decide, by decide, ?_⟩
    exact claim_C5.1 ⟨0, 0, -1⟩ ['[', '1', ']'] 3 2 1 (by decide) (by decide)
      (by decide)
  · refine ⟨by decide, ?_⟩
    obtain ⟨toks, hcore⟩ := jfes_nested_array_tokens JFES_STRICT 8193
    refine claim_C5.2 (List.replicate 8193 '[' ++ List.replicate 8193 ']')
      (2 * 8193) 8193 ?_ ?_ (by decide)
    · rw [jfes_parse_tokens_null_status, hcore]
    · rw [jfes_parse_tokens_null_count, hcore]

/-- A primitive scan never moves the cursor backwards. -/
theorem jfes_scan_primitive_ge (length : Nat) :
    ∀ (rem : List Char) (p : Nat), p ≤ (jfes_scan_primitive length rem p).1 := by
  intro rem
  induction rem with
  | nil => intro p; simp [jfes_scan_primitive]
  | cons c rest ih =>
    intro p
    rw [jfes_scan_primitive.eq_def]
    dsimp only
    by_cases h1 : length ≤ p
    · rw [if_pos h1]
    · rw [if_neg h1]
      by_cases h2 : jfes_is_delimiter c = true
      · rw [if_pos h2]
      · rw [if_neg h2]
        have := ih (p + 1)
        dsimp only
        omega

/-- A primitive scan never moves the cursor past the declared length. -/
theorem jfes_scan_primitive_le (length : Nat) :
    ∀ (rem : List Char) (p : Nat), p ≤ length →
      (jfes_scan_primitive length rem p).1 ≤ length := by
  intro rem
  induction rem with
  | nil => intro p hp; simpa [jfes_scan_primitive] using hp
  | cons c rest ih =>
    intro p hp
    rw [jfes_scan_primitive.eq_def]
    dsimp only
    by_cases h1 : length ≤ p
    · rw [if_pos h1]
      exact hp
    · rw [if_neg h1]
      by_cases h2 : jfes_is_delimiter c = true
      · rw [if_pos h2]
        exact hp
      · rw [if_neg h2]
        have := ih (p + 1) (by omega)
        dsimp only
        omega

/-- A primitive scan on a live non-delimiter character advances. -/
theorem jfes_scan_primitive_gt (length : Nat) (c : Char) (rest : List Char)
    (p : Nat) (hp : p < length) (hc : ¬jfes_is_delimiter c = true) :
    p < (jfes_scan_primitive length (c :: rest) p).1 := by
  rw [jfes_scan_primitive.eq_def]
  dsimp only
  rw [if_neg (by omega), if_neg hc]
  have := jfes_scan_primitive_ge length rest (p + 1)
  dsimp only
  omega

/-- A successful string scan closes at a quote strictly inside the declared
length, at or after the scan start. -/
theorem jfes_scan_string_bounds (length : Nat) :
    ∀ (k : Nat) (rem : List Char) (p closePos : Nat) (rest' : List Char),
      rem.length ≤ k → jfes_scan_string length rem p = .ok (closePos, rest') →
      p ≤ closePos ∧ closePos < length := by
  intro k
  induction k with
  | zero =>
    intro rem p closePos rest'
    match rem with
    | [] =>
      intro _ h
      simp [jfes_scan_string] at h
    | c :: rest =>
      intro hk _
      simp only [List.length_cons] at hk
      omega
  | succ m ih =>
    intro rem p closePos rest'
    match rem with
    | [] =>
      intro _ h
      simp [jfes_scan_string] at h
    | c :: rest =>
      intro hk h
      simp only [List.length_cons] at hk
      rw [jfes_scan_string.eq_def] at h
      dsimp only at h
      by_cases h1 : length ≤ p
      · rw [if_pos h1] at h
        exact Except.noConfusion h
      · rw [if_neg h1] at h
        by_cases h2 : c = '\"'
        · rw [if_pos h2] at h
          obtain ⟨ha, hb⟩ := Prod.mk.inj (Except.ok.inj h)
          omega
        · rw [if_neg h2] at h
          by_cases h3 : c = '\\'
          · rw [if_pos h3] at h
            match rest, hk, h with
            | [], hk, h =>
              dsimp only at h
              exact Except.noConfusion h
            | e2 :: rest2, hk, h =>
              dsimp only at h
              simp only [List.length_cons] at hk
              by_cases h4 : length ≤ p + 1
              · rw [if_pos h4] at h
                exact Except.noConfusion h
              · rw [if_neg h4] at h
                by_cases h5 : e2 = 'u'
                · rw [if_pos h5] at h
                  match rest2, hk, h with
                  | [], _, h => exact Except.noConfusion h
                  | [a1], _, h => exact Except.noConfusion h
                  | [a1, a2], _, h => exact Except.noConfusion h
                  | [a1, a2, a3], _, h => exact Except.noConfusion h
                  | a1 :: a2 :: a3 :: a4 :: rest3, hk, h =>
                    dsimp only at h
                    simp only [List.length_cons] at hk
                    by_cases h6 : length ≤ p + 5
                    · rw [if_pos h6] at h
                      exact Except.noConfusion h
                    · rw [if_neg h6] at h
                      by_cases h7 : jfes_is_hex_digit a1 = true ∧
                          jfes_is_hex_digit a2 = true ∧
                          jfes_is_hex_digit a3 = true ∧
                          jfes_is_hex_digit a4 = true
                      · rw [if_pos h7] at h
                        have := ih rest3 (p + 6) closePos rest'
                          (by omega) h
                        omega
                      · rw [if_neg h7] at h
                        exact Except.noConfusion h
                · rw [if_neg h5] at h
                  by_cases h8 : e2 = '\"' ∨ e2 = '/' ∨ e2 = '\\' ∨ e2 = 'b' ∨
                      e2 = 'f' ∨ e2 = 'n' ∨ e2 = 'r' ∨ e2 = 't'
                  · rw [if_pos h8] at h
                    have := ih rest2 (p + 2) closePos rest' (by omega) h
                    omega
                  · rw [if_neg h8] at h
                    exact Except.noConfusion h
          · rw [if_neg h3] at h
            have := ih rest (p + 1) closePos rest' (by omega) h
            omega

/-- Setting an index to the element already stored there changes nothing. -/
theorem jfes_set_self {α : Type} :
    ∀ (l : List α) (n : Nat) (a : α), l[n]? = some a → l.set n a = l := by
  intro l
  induction l with
  | nil => intro n a h; simp at h
  | cons x xs ih =>
    intro n a h
    match n with
    | 0 =>
      simp only [List.getElem?_cons_zero, Option.some.injEq] at h
      rw [h]
      rfl
    | n' + 1 =>
      simp only [List.getElem?_cons_succ] at h
      simp [ih n' a h]

/-- Every token of a parent-size bump comes from the original store with the
same type, start and end offsets. -/
theorem jfes_inc_parent_mem (rts : List jfes_token_t) (sup : Int) :
    ∀ u ∈ jfes_inc_parent_rts rts sup,
      ∃ t ∈ rts, u.start = t.start ∧ u.end_ = t.end_ ∧ u.type = t.type := by
  intro u hu
  simp only [jfes_inc_parent_rts] at hu
  split at hu
  · exact ⟨u, hu, rfl, rfl, rfl⟩
  · split at hu
    · exact ⟨u, hu, rfl, rfl, rfl⟩
    · split at hu
      · rename_i pt hpt _
        rcases List.mem_or_eq_of_mem_set hu with hmem | heq
        · exact ⟨u, hmem, rfl, rfl, rfl⟩
        · refine ⟨pt, ?_, by rw [heq], by rw [heq], by rw [heq]⟩
          exact List.getElem?_mem hpt
      · exact ⟨u, hu, rfl, rfl, rfl⟩

/-- A parent-size bump leaves the start offsets untouched. -/
theorem jfes_inc_parent_map_start (rts : List jfes_token_t) (sup : Int) :
    (jfes_inc_parent_rts rts sup).map (fun t => t.start) =
      rts.map (fun t => t.start) := by
  simp only [jfes_inc_parent_rts]
  split
  · rfl
  · split
    · rfl
    · split
      · rename_i pt hpt _
        rw [List.map_set]
        exact jfes_set_self _ _ _ (by rw [List.getElem?_map, hpt]; rfl)
      · rfl

/-- The scan-state invariant: every emitted token has a nonnegative start
offset strictly before the cursor, and is either still open or finalized
with `start ≤ end ≤ length`; the start offsets strictly decrease along the
reversed store (so they strictly increase in emission order). -/
def jfes_rts_inv (length pos : Nat) (rts : List jfes_token_t) : Prop :=
  (∀ t ∈ rts, 0 ≤ t.start ∧ t.start < (pos : Int) ∧
    (t.end_ = -1 ∨ (t.start ≤ t.end_ ∧ t.end_ ≤ (length : Int)))) ∧
  rts.Pairwise (fun a b => b.start < a.start)

/-- The invariant survives moving the cursor forward. -/
theorem jfes_rts_inv_mono (length pos pos' : Nat)
    (rts : List jfes_token_t) (hle : pos ≤ pos')
    (h : jfes_rts_inv length pos rts) : jfes_rts_inv length pos' rts := by
  refine ⟨fun t ht => ?_, h.2⟩
  obtain ⟨h1, h2, h3⟩ := h.1 t ht
  refine ⟨h1, by omega, h3⟩

/-- Transport of the start-offset ordering along a start-preserving store
rewrite. -/
theorem jfes_pairwise_start_of_map_eq (l1 l2 : List jfes_token_t)
    (hmap : l1.map (fun t => t.start) = l2.map (fun t => t.start))
    (h : l2.Pairwise (fun a b => b.start < a.start)) :
    l1.Pairwise (fun a b => b.start < a.start) := by
  have h2 : (l2.map (fun t => t.start)).Pairwise (fun a b => b < a) := by
    rw [List.pairwise_map]
    exact h
  rw [← hmap, List.pairwise_map] at h2
  exact h2

/-- One successful scan step preserves the invariant, moves the cursor
strictly forward and never past the declared length. -/
theorem jfes_scan_step_inv (strict : Bool) (cap : Option Nat) (length : Nat)
    (c : Char) (rest : List Char) (pos : Nat) (st : jfes_scan_state)
    (rem' : List Char) (pos' : Nat) (st' : jfes_scan_state)
    (hpos : pos < length)
    (hstep : jfes_scan_step strict cap length c rest pos st =
      .ok (rem', pos', st'))
    (hinv : jfes_rts_inv length pos st.rts) :
    jfes_rts_inv length pos' st'.rts ∧ pos < pos' ∧ pos' ≤ length := by
  obtain ⟨hmem, hpw⟩ := hinv
  by_cases hw : jfes_is_whitespace c = true
  · simp only [jfes_scan_step, if_pos hw] at hstep
    obtain ⟨h1, h2, h3⟩ := jfes_triple_eq (Except.ok.inj hstep)
    subst h2; subst h3
    exact ⟨jfes_rts_inv_mono length pos (pos + 1) st.rts (by omega)
      ⟨hmem, hpw⟩, by omega, by omega⟩
  · by_cases hob : c = '{' ∨ c = '['
    · simp only [jfes_scan_step, if_neg hw, if_pos hob] at hstep
      split at hstep
      · exact Except.noConfusion hstep
      · rename_i st1 heq
        have hpush := jfes_alloc_token_ok cap st _ st1 heq
        obtain ⟨h1, h2, h3⟩ := jfes_triple_eq (Except.ok.inj hstep)
        subst h2
        have hrts : st'.rts =
            (⟨(if c = '{' then jfes_token_type_t.jfes_object
               else .jfes_array), (pos : Int), -1, 0⟩ : jfes_token_t) ::
              jfes_inc_parent_rts st.rts st.superior := by
          rw [← h3, hpush]
        constructor
        · rw [hrts]
          constructor
          · intro t ht
            rcases List.mem_cons.mp ht with h | h
            · rw [h]
              refine ⟨by positivity, by push_cast; omega, Or.inl rfl⟩
            · obtain ⟨u, hu, e1, e2, _⟩ :=
                jfes_inc_parent_mem st.rts st.superior t h
              obtain ⟨b1, b2, b3⟩ := hmem u hu
              rw [e1, e2]
              exact ⟨b1, by omega, b3⟩
          · rw [List.pairwise_cons]
            constructor
            · intro b hb
              obtain ⟨u, hu, e1, _, _⟩ :=
                jfes_inc_parent_mem st.rts st.superior b hb
              obtain ⟨b1, b2, _⟩ := hmem u hu
              rw [e1]
              simpa using b2
            · exact jfes_pairwise_start_of_map_eq _ _
                (jfes_inc_parent_map_start st.rts st.superior) hpw
        · omega
    · by_cases hcb : c = '}' ∨ c = ']'
      · simp only [jfes_scan_step, if_neg hw, if_neg hob, if_pos hcb]
          at hstep
        split at hstep
        · exact Except.noConfusion hstep
        · rename_i p hfind
          split at hstep
          · exact Except.noConfusion hstep
          · rename_i t hget
            have htmem := List.getElem?_mem hget
            obtain ⟨tb1, tb2, _⟩ := hmem t htmem
            split at hstep <;>
              [skip; skip] <;> split at hstep
            case _ =>
              exact Except.noConfusion hstep
            case _ =>
              obtain ⟨h1, h2, h3⟩ := jfes_triple_eq (Except.ok.inj hstep)
              subst h2
              have hrts : st'.rts =
                  st.rts.set p { t with end_ := (pos : Int) + 1 } := by
                rw [← h3]
              constructor
              · rw [hrts]
                constructor
                · intro u hu
                  rcases List.mem_or_eq_of_mem_set hu with h | h
                  · obtain ⟨b1, b2, b3⟩ := hmem u h
                    exact ⟨b1, by omega, b3⟩
                  · rw [h]
                    refine ⟨tb1, by simpa using (by omega : t.start < ((pos : Int) + 1)), ?_⟩
                    right
                    constructor
                    · simpa using (by omega : t.start ≤ (pos : Int) + 1)
                    · simpa using (by push_cast; omega : ((pos : Int) + 1) ≤ (length : Int))
                · refine jfes_pairwise_start_of_map_eq _ _ ?_ hpw
                  rw [List.map_set]
                  exact jfes_set_self _ _ _
                    (by rw [List.getElem?_map, hget]; rfl)
              · omega
            case _ =>
              exact Except.noConfusion hstep
            case _ =>
              obtain ⟨h1, h2, h3⟩ := jfes_triple_eq (Except.ok.inj hstep)
              subst h2
              have hrts : st'.rts =
                  st.rts.set p { t with end_ := (pos : Int) + 1 } := by
                rw [← h3]
              constructor
              · rw [hrts]
                constructor
                · intro u hu
                  rcases List.mem_or_eq_of_mem_set hu with h | h
                  · obtain ⟨b1, b2, b3⟩ := hmem u h
                    exact ⟨b1, by omega, b3⟩
                  · rw [h]
                    refine ⟨tb1, by simpa using (by omega : t.start < ((pos : Int) + 1)), ?_⟩
                    right
                    constructor
                    · simpa using (by omega : t.start ≤ (pos : Int) + 1)
                    · simpa using (by push_cast; omega : ((pos : Int) + 1) ≤ (length : Int))
                · refine jfes_pairwise_start_of_map_eq _ _ ?_ hpw
                  rw [List.map_set]
                  exact jfes_set_self _ _ _
                    (by rw [List.getElem?_map, hget]; rfl)
              · omega
      · by_cases hq : c = '\"'
        · simp only [jfes_scan_step, if_neg hw, if_neg hob, if_neg hcb,
            if_pos hq] at hstep
          split at hstep
          · exact Except.noConfusion hstep
          · rename_i closePos rest2 hscan
            split at hstep
            · exact Except.noConfusion hstep
            · rename_i st1 heq
              have hpush := jfes_alloc_token_ok cap st _ st1 heq
              obtain ⟨h1, h2, h3⟩ := jfes_triple_eq (Except.ok.inj hstep)
              subst h2
              obtain ⟨hb1, hb2⟩ := jfes_scan_string_bounds length rest.length
                rest (pos + 1) closePos rest2 (Nat.le_refl _) hscan
              have hrts : st'.rts =
                  (⟨.jfes_string, (pos : Int) + 1, (closePos : Int), 0⟩ :
                    jfes_token_t) ::
                    jfes_inc_parent_rts st.rts st.superior := by
                rw [← h3, hpush]
              constructor
              · rw [hrts]
                constructor
                · intro t ht
                  rcases List.mem_cons.mp ht with h | h
                  · rw [h]
                    refine ⟨by positivity, by push_cast; omega, ?_⟩
                    right
                    exact ⟨by push_cast; omega, by push_cast; omega⟩
                  · obtain ⟨u, hu, e1, e2, _⟩ :=
                      jfes_inc_parent_mem st.rts st.superior t h
                    obtain ⟨b1, b2, b3⟩ := hmem u hu
                    rw [e1, e2]
                    exact ⟨b1, by push_cast; push_cast at b2; omega, b3⟩
                · rw [List.pairwise_cons]
                  constructor
                  · intro b hb
                    obtain ⟨u, hu, e1, _, _⟩ :=
                      jfes_inc_parent_mem st.rts st.superior b hb
                    obtain ⟨b1, b2, _⟩ := hmem u hu
                    rw [e1]
                    push_cast
                    push_cast at b2
                    omega
                  · exact jfes_pairwise_start_of_map_eq _ _
                      (jfes_inc_parent_map_start st.rts st.superior) hpw
              · omega
        · by_cases hcol : c = ':'
          · simp only [jfes_scan_step, if_neg hw, if_neg hob, if_neg hcb,
              if_neg hq, if_pos hcol] at hstep
            obtain ⟨h1, h2, h3⟩ := jfes_triple_eq (Except.ok.inj hstep)
            subst h2
            have hrts : st'.rts = st.rts := by rw [← h3]
            rw [hrts]
            exact ⟨jfes_rts_inv_mono length pos (pos + 1) st.rts (by omega)
              ⟨hmem, hpw⟩, by omega, by omega⟩
          · by_cases hcom : c = ','
            · simp only [jfes_scan_step, if_neg hw, if_neg hob, if_neg hcb,
                if_neg hq, if_neg hcol, if_pos hcom] at hstep
              split at hstep <;>
              · obtain ⟨h1, h2, h3⟩ := jfes_triple_eq (Except.ok.inj hstep)
                subst h2
                have hrts : st'.rts = st.rts := by rw [← h3]
                rw [hrts]
                exact ⟨jfes_rts_inv_mono length pos (pos + 1) st.rts
                  (by omega) ⟨hmem, hpw⟩, by omega, by omega⟩
            · have hdel : ¬jfes_is_delimiter c = true := by
                simp only [jfes_is_delimiter, decide_eq_true_eq]
                intro hcon
                rcases hcon with h | h | h | h | h
                · exact hw h
                · exact hcom h
                · exact hcb (Or.inr h)
                · exact hcb (Or.inl h)
                · exact hcol h
              simp only [jfes_scan_step, if_neg hw, if_neg hob, if_neg hcb,
                if_neg hq, if_neg hcol, if_neg hcom] at hstep
              split at hstep
              · exact Except.noConfusion hstep
              · split at hstep
                · exact Except.noConfusion hstep
                · rename_i st1 heq
                  have hpush := jfes_alloc_token_ok cap st _ st1 heq
                  obtain ⟨h1, h2, h3⟩ := jfes_triple_eq (Except.ok.inj hstep)
                  subst h2
                  have hgt := jfes_scan_primitive_gt length c rest pos hpos
                    hdel
                  have hle := jfes_scan_primitive_le length (c :: rest) pos
                    (by omega)
                  have hrts : st'.rts =
                      (⟨jfes_primitive_token_type
                          (jfes_scan_primitive length (c :: rest) pos).2.1,
                        (pos : Int),
                        ((jfes_scan_primitive length (c :: rest) pos).1 :
                          Int), 0⟩ : jfes_token_t) ::
                        jfes_inc_parent_rts st.rts st.superior := by
                    rw [← h3, hpush]
                  constructor
                  · rw [hrts]
                    constructor
                    · intro t ht
                      rcases List.mem_cons.mp ht with h | h
                      · rw [h]
                        refine ⟨by positivity, by push_cast; omega, ?_⟩
                        right
                        exact ⟨by push_cast; omega, by push_cast; omega⟩
                      · obtain ⟨u, hu, e1, e2, _⟩ :=
                          jfes_inc_parent_mem st.rts st.superior t h
                        obtain ⟨b1, b2, b3⟩ := hmem u hu
                        rw [e1, e2]
                        exact ⟨b1, by push_cast; push_cast at b2; omega, b3⟩
                    · rw [List.pairwise_cons]
                      constructor
                      · intro b hb
                        obtain ⟨u, hu, e1, _, _⟩ :=
                          jfes_inc_parent_mem st.rts st.superior b hb
                        obtain ⟨b1, b2, _⟩ := hmem u hu
                        rw [e1]
                        push_cast
                        push_cast at b2
                        omega
                      · exact jfes_pairwise_start_of_map_eq _ _
                          (jfes_inc_parent_map_start st.rts st.superior) hpw
                  · omega

/-- A successful finalize returns the state unchanged and certifies that
every token has been closed. -/
theorem jfes_scan_finalize_ok_closed (st final : jfes_scan_state)
    (h : jfes_scan_finalize st = .ok final) :
    final = st ∧ ∀ t ∈ st.rts, ¬t.end_ = -1 := by
  unfold jfes_scan_finalize at h
  split at h
  · exact Except.noConfusion h
  · rename_i hany
    refine ⟨(Except.ok.inj h).symm, ?_⟩
    intro t ht hcon
    refine hany ?_
    simp only [List.any_eq_true, beq_iff_eq]
    exact ⟨t, ht, hcon⟩

/-- A successful scan produces only tokens with
`0 ≤ start ≤ end ≤ length`, their start offsets strictly decreasing along
the reversed store. -/
theorem jfes_scan_loop_bounds (strict : Bool) (cap : Option Nat)
    (length : Nat) :
    ∀ (fuel : Nat) (rem : List Char) (pos : Nat) (st final : jfes_scan_state),
      jfes_scan_loop strict cap length fuel rem pos st = .ok final →
      pos ≤ length → jfes_rts_inv length pos st.rts →
      (∀ t ∈ final.rts, 0 ≤ t.start ∧ t.start ≤ t.end_ ∧
        t.end_ ≤ (length : Int)) ∧
      final.rts.Pairwise (fun a b => b.start < a.start) := by
  intro fuel
  induction fuel with
  | zero =>
    intro rem pos st final h _ _
    simp [jfes_scan_loop] at h
  | succ m ih =>
    intro rem pos st final h hle hinv
    simp only [jfes_scan_loop] at h
    split at h
    · obtain ⟨hfs, hclosed⟩ := jfes_scan_finalize_ok_closed st final h
      subst hfs
      constructor
      · intro t ht
        obtain ⟨b1, b2, b3⟩ := hinv.1 t ht
        rcases b3 with b3 | b3
        · exact absurd b3 (hclosed t ht)
        · exact ⟨b1, b3.1, b3.2⟩
      · exact hinv.2
    · rename_i hpos2
      split at h
      · obtain ⟨hfs, hclosed⟩ := jfes_scan_finalize_ok_closed st final h
        subst hfs
        constructor
        · intro t ht
          obtain ⟨b1, b2, b3⟩ := hinv.1 t ht
          rcases b3 with b3 | b3
          · exact absurd b3 (hclosed t ht)
          · exact ⟨b1, b3.1, b3.2⟩
        · exact hinv.2
      · rename_i c rest
        split at h
        · rename_i r heq
          have hstep := jfes_scan_step_inv strict cap length c rest pos st
            r.1 r.2.1 r.2.2 (by omega) heq hinv
          exact ih r.1 r.2.1 r.2.2 final h (by omega) hstep.1
        · exact Except.noConfusion h

/-- A primitive scan sees only the declared input: truncating the remaining
buffer at the declared length changes neither the end position nor the
lexeme, and the leftover is the truncation of the original leftover. -/
theorem jfes_scan_primitive_take (length : Nat) :
    ∀ (rem : List Char) (p : Nat),
      (jfes_scan_primitive length (rem.take (length - p)) p).1 =
        (jfes_scan_primitive length rem p).1 ∧
      (jfes_scan_primitive length (rem.take (length - p)) p).2.1 =
        (jfes_scan_primitive length rem p).2.1 ∧
      (jfes_scan_primitive length (rem.take (length - p)) p).2.2 =
        (jfes_scan_primitive length rem p).2.2.take
          (length - (jfes_scan_primitive length rem p).1) := by
  intro rem
  induction rem with
  | nil =>
    intro p
    simp [jfes_scan_primitive]
  | cons c rest ih =>
    intro p
    have ecC : ∀ (d : List Char) (q : Nat),
        jfes_scan_primitive length (c :: d) q =
          if length ≤ q then (q, [], c :: d)
          else if jfes_is_delimiter c = true then (q, [], c :: d)
          else ((jfes_scan_primitive length d (q + 1)).1,
                c :: (jfes_scan_primitive length d (q + 1)).2.1,
                (jfes_scan_primitive length d (q + 1)).2.2) :=
      fun d q => rfl
    have ecN : ∀ (q : Nat),
        jfes_scan_primitive length ([] : List Char) q = (q, [], []) :=
      fun q => rfl
    by_cases h1 : length ≤ p
    · have h0 : length - p = 0 := by omega
      rw [h0, List.take_zero, ecN, ecC, if_pos h1]
      exact ⟨rfl, rfl, by rw [h0]; simp⟩
    · have hs : length - p = (length - (p + 1)) + 1 := by omega
      rw [hs, List.take_succ_cons, ecC, ecC, if_neg h1, if_neg h1]
      by_cases h2 : jfes_is_delimiter c = true
      · rw [if_pos h2, if_pos h2]
        refine ⟨rfl, rfl, ?_⟩
        show c :: List.take (length - (p + 1)) rest =
          List.take (length - p) (c :: rest)
        rw [hs, List.take_succ_cons]
      · rw [if_neg h2, if_neg h2]
        obtain ⟨e1, e2, e3⟩ := ih (p + 1)
        rw [e1, e2, e3]
        exact ⟨rfl, rfl, rfl⟩

/-- A string scan sees only the declared input: truncating the remaining
buffer at the declared length yields the same outcome, with the leftover
buffer truncated accordingly. -/
theorem jfes_scan_string_take (length : Nat) :
    ∀ (k : Nat) (rem : List Char) (p : Nat), rem.length ≤ k →
      jfes_scan_string length (rem.take (length - p)) p =
        (match jfes_scan_string length rem p with
         | .error e => .error e
         | .ok pr => .ok (pr.1, pr.2.take (length - (pr.1 + 1)))) := by
  intro k
  induction k with
  | zero =>
    intro rem p hk
    match rem with
    | [] => simp [jfes_scan_string]
    | c :: rest =>
      simp only [List.length_cons] at hk
      omega
  | succ m ih =>
    intro rem p hk
    match rem with
    | [] => simp [jfes_scan_string]
    | c :: rest =>
      simp only [List.length_cons] at hk
      by_cases h1 : length ≤ p
      · have h0 : length - p = 0 := by omega
        rw [h0, List.take_zero]
        rw [jfes_scan_string.eq_def, jfes_scan_string.eq_def]
        dsimp only
        rw [if_pos h1]
      · have hs : length - p = (length - (p + 1)) + 1 := by omega
        rw [hs, List.take_succ_cons]
        rw [jfes_scan_string.eq_def, jfes_scan_string.eq_def]
        dsimp only
        rw [if_neg h1, if_neg h1]
        by_cases h2 : c = '\"'
        · rw [if_pos h2, if_pos h2]
        · rw [if_neg h2, if_neg h2]
          by_cases h3 : c = '\\'
          · rw [if_pos h3, if_pos h3]
            match rest, hk with
            | [], hk => simp
            | e2 :: rest2, hk =>
              simp only [List.length_cons] at hk
              by_cases h4 : length ≤ p + 1
              · have h0 : length - (p + 1) = 0 := by omega
                rw [h0, List.take_zero]
                dsimp only
                rw [if_pos h4]
              · have hs2 : length - (p + 1) = (length - (p + 2)) + 1 := by
                  omega
                rw [hs2, List.take_succ_cons]
                dsimp only
                rw [if_neg h4, if_neg h4]
                by_cases h5 : e2 = 'u'
                · rw [if_pos h5, if_pos h5]
                  match rest2, hk with
                  | [], _ => simp
                  | [a1], _ =>
                    match hm : length - (p + 2) with
                    | 0 => simp
                    | m2 + 1 => simp
                  | [a1, a2], _ =>
                    match hm : length - (p + 2) with
                    | 0 => simp
                    | 1 => simp
                    | m2 + 2 => simp
                  | [a1, a2, a3], _ =>
                    match hm : length - (p + 2) with
                    | 0 => simp
                    | 1 => simp
                    | 2 => simp
                    | m2 + 3 => simp
                  | a1 :: a2 :: a3 :: a4 :: rest3, hk =>
                    simp only [List.length_cons] at hk
                    by_cases h6 : length ≤ p + 5
                    · have hm : length - (p + 2) ≤ 3 := by omega
                      match hmv : length - (p + 2), hm with
                      | 0, _ => simp [h6]
                      | 1, _ => simp [h6]
                      | 2, _ => simp [h6]
                      | 3, _ => simp [h6]
                    · have hm : length - (p + 2) = (length - (p + 6)) + 4 := by
                        omega
                      rw [hm]
                      simp only [List.take_succ_cons]
                      rw [if_neg h6, if_neg h6]
                      by_cases h7 : jfes_is_hex_digit a1 = true ∧
                          jfes_is_hex_digit a2 = true ∧
                          jfes_is_hex_digit a3 = true ∧
                          jfes_is_hex_digit a4 = true
                      · rw [if_pos h7, if_pos h7]
                        exact ih rest3 (p + 6) (by omega)
                      · rw [if_neg h7, if_neg h7]
                · rw [if_neg h5, if_neg h5]
                  by_cases h8 : e2 = '\"' ∨ e2 = '/' ∨ e2 = '\\' ∨
                      e2 = 'b' ∨ e2 = 'f' ∨ e2 = 'n' ∨ e2 = 'r' ∨ e2 = 't'
                  · rw [if_pos h8, if_pos h8]
                    exact ih rest2 (p + 2) (by omega)
                  · rw [if_neg h8, if_neg h8]
          · rw [if_neg h3, if_neg h3]
            exact ih rest (p + 1) (by omega)

/-- One scan step sees only the declared input: truncating the unread
buffer at the declared length yields the same outcome with a truncated
leftover buffer. -/
theorem jfes_scan_step_take (strict : Bool) (cap : Option Nat) (length : Nat)
    (c : Char) (rest : List Char) (pos : Nat) (st : jfes_scan_state)
    (hpos : pos < length) :
    jfes_scan_step strict cap length c (rest.take (length - (pos + 1)))
        pos st =
      (match jfes_scan_step strict cap length c rest pos st with
       | .error e => .error e
       | .ok r => .ok (r.1.take (length - r.2.1), r.2.1, r.2.2)) := by
  by_cases hw : jfes_is_whitespace c = true
  · simp only [jfes_scan_step, if_pos hw]
  · by_cases hob : c = '{' ∨ c = '['
    · simp only [jfes_scan_step, if_neg hw, if_pos hob]
      rcases halloc : jfes_alloc_token cap st
        { type := if c = '{' then .jfes_object else .jfes_array,
          start := (pos : Int), end_ := -1, size := 0 } with e | st1 <;>
        simp only [halloc]
    · by_cases hcb : c = '}' ∨ c = ']'
      · simp only [jfes_scan_step, if_neg hw, if_neg hob, if_pos hcb]
        rcases hfind : jfes_find_open st.rts with _ | p <;>
          simp only [hfind]
        rcases hget : st.rts[p]? with _ | t <;> simp only [hget]
        by_cases hty : t.type ≠ (if c = '}' then jfes_token_type_t.jfes_object
            else .jfes_array)
        · rw [if_pos hty, if_pos hty]
        · rw [if_neg hty, if_neg hty]
      · by_cases hq : c = '\"'
        · simp only [jfes_scan_step, if_neg hw, if_neg hob, if_neg hcb,
            if_pos hq]
          have htake := jfes_scan_string_take length rest.length rest
            (pos + 1) (Nat.le_refl _)
          rw [htake]
          rcases hscan : jfes_scan_string length rest (pos + 1)
            with e | ⟨cp, rs⟩
          · simp only [hscan]
          · simp only [hscan]
            rcases halloc : jfes_alloc_token cap st
              { type := .jfes_string, start := (pos : Int) + 1,
                end_ := (cp : Int), size := 0 } with e | st1
            · simp only [halloc]
            · simp only [halloc]
        · by_cases hcol : c = ':'
          · simp only [jfes_scan_step, if_neg hw, if_neg hob, if_neg hcb,
              if_neg hq, if_pos hcol]
          · by_cases hcom : c = ','
            · simp only [jfes_scan_step, if_neg hw, if_neg hob, if_neg hcb,
                if_neg hq, if_neg hcol, if_pos hcom]
              split <;> rfl
            · simp only [jfes_scan_step, if_neg hw, if_neg hob, if_neg hcb,
                if_neg hq, if_neg hcol, if_neg hcom]
              obtain ⟨e1, e2, e3⟩ := jfes_scan_primitive_take length
                (c :: rest) pos
              have hteq : (c :: rest).take (length - pos) =
                  c :: rest.take (length - (pos + 1)) := by
                rw [show length - pos = (length - (pos + 1)) + 1 by omega]
                rw [List.take_succ_cons]
              rw [hteq] at e1 e2 e3
              rw [e1, e2, e3]
              by_cases hstu : strict = true ∧
                  jfes_primitive_token_type
                    (jfes_scan_primitive length (c :: rest) pos).2.1 =
                    .jfes_undefined
              · rw [if_pos hstu, if_pos hstu]
              · rw [if_neg hstu, if_neg hstu]
                rcases halloc : jfes_alloc_token cap st
                  { type := jfes_primitive_token_type
                      (jfes_scan_primitive length (c :: rest) pos).2.1,
                    start := (pos : Int),
                    end_ := ((jfes_scan_primitive length (c :: rest) pos).1 :
                      Int), size := 0 } with e | st1
                · simp only [halloc]
                · simp only [halloc]

/-- The scan as a whole sees only the first `length` declared bytes:
truncating the input there changes nothing. -/
theorem jfes_scan_loop_take (strict : Bool) (cap : Option Nat)
    (length : Nat) :
    ∀ (fuel : Nat) (rem : List Char) (pos : Nat) (st : jfes_scan_state),
      jfes_scan_loop strict cap length fuel (rem.take (length - pos)) pos
          st =
        jfes_scan_loop strict cap length fuel rem pos st := by
  intro fuel
  induction fuel with
  | zero =>
    intro rem pos st
    simp [jfes_scan_loop]
  | succ m ih =>
    intro rem pos st
    simp only [jfes_scan_loop]
    by_cases h1 : length ≤ pos
    · rw [if_pos h1, if_pos h1]
    · rw [if_neg h1, if_neg h1]
      match rem with
      | [] =>
        simp only [List.take_nil]
      | c :: rest =>
        have hteq : (c :: rest).take (length - pos) =
            c :: rest.take (length - (pos + 1)) := by
          rw [show length - pos = (length - (pos + 1)) + 1 by omega]
          rw [List.take_succ_cons]
        rw [hteq]
        dsimp only
        rw [jfes_scan_step_take strict cap length c rest pos st (by omega)]
        rcases hstep : jfes_scan_step strict cap length c rest pos st
          with e | r
        · simp only
        · simp only
          rw [← ih r.1 r.2.1 r.2.2]

/-- Token bounds for a successful tokenizing pass, at the core level. -/
theorem jfes_core_bounds (strict : Bool) (cap : Option Nat)
    (json : List Char) (length : Nat)
    (hs : (jfes_parse_tokens_core strict cap json length).1 =
      .jfes_success) :
    ∀ t ∈ (jfes_parse_tokens_core strict cap json length).2.2,
      0 ≤ t.start ∧ t.start ≤ t.end_ ∧ t.end_ ≤ (length : Int) := by
  rcases hloop : jfes_scan_loop strict cap length (length + 1) json 0
    ⟨[], -1⟩ with e | st
  · unfold jfes_parse_tokens_core at hs
    rw [hloop] at hs
    exact absurd hs (jfes_scan_loop_no_success strict cap length
      (length + 1) json 0 ⟨[], -1⟩ e hloop)
  · intro t ht
    unfold jfes_parse_tokens_core at ht
    rw [hloop] at ht
    dsimp only at ht
    have hb := jfes_scan_loop_bounds strict cap length (length + 1) json 0
      ⟨[], -1⟩ st hloop (by omega)
      ⟨fun u hu => absurd hu (List.not_mem_nil u), List.Pairwise.nil⟩
    exact hb.1 t (List.mem_reverse.mp ht)

/-- The core tokenizing pass is blind to anything past the declared
length. -/
theorem jfes_core_take (strict : Bool) (cap : Option Nat) (json : List Char)
    (length : Nat) :
    jfes_parse_tokens_core strict cap (json.take length) length =
      jfes_parse_tokens_core strict cap json length := by
  unfold jfes_parse_tokens_core
  rw [show json.take length = json.take (length - 0) by rw [Nat.sub_zero]]
  rw [jfes_scan_loop_take]

/-- Claim C8: every token of a successful `jfes_parse_tokens` run has
`0 ≤ start ≤ end ≤ length`, and the tokenizer never reads past the declared
length: the result on any input equals the result on its first `length`
bytes. -/
theorem claim_C8 :
    (∀ (p : jfes_parser_t) (json : List Char) (length : Nat) (tn : Bool)
        (m : Nat),
      (jfes_parse_tokens p json length tn m).status = .jfes_success →
      ∀ t ∈ (jfes_parse_tokens p json length tn m).tokens,
        0 ≤ t.start ∧ t.start ≤ t.end_ ∧ t.end_ ≤ (length : Int)) ∧
    (∀ (p : jfes_parser_t) (json : List Char) (length : Nat) (tn : Bool)
        (m : Nat),
      jfes_parse_tokens p json length tn m =
        jfes_parse_tokens p (json.take length) length tn m) := by
  constructor
  · intro p json length tn m hs t ht
    exact jfes_core_bounds JFES_STRICT (if tn then none else some m) json
      length hs t ht
  · intro p json length tn m
    unfold jfes_parse_tokens
    dsimp only
    rw [jfes_core_take]

/-- Witness for claim C8: the array token of `[1]` spans `[0, 3)` inside
the declared length 3. -/
theorem claim_C8_witness :
    ((jfes_parse_tokens ⟨0, 0, -1⟩ ['[', '1', ']'] 3 false 8).status =
        .jfes_success) ∧
    ((⟨.jfes_array, 0, 3, 1⟩ : jfes_token_t) ∈
        (jfes_parse_tokens ⟨0, 0, -1⟩ ['[', '1', ']'] 3 false 8).tokens) ∧
    (0 ≤ (⟨.jfes_array, 0, 3, 1⟩ : jfes_token_t).start ∧
      (⟨.jfes_array, 0, 3, 1⟩ : jfes_token_t).start ≤
        (⟨.jfes_array, 0, 3, 1⟩ : jfes_token_t).end_ ∧
      (⟨.jfes_array, 0, 3, 1⟩ : jfes_token_t).end_ ≤ ((3 : Nat) : Int)) :=
  ⟨by decide, by decide,
   claim_C8.1 ⟨0, 0, -1⟩ ['[', '1', ']'] 3 false 8 (by decide)
     ⟨.jfes_array, 0, 3, 1⟩ (by decide)⟩

/-- The builder's cursor moves strictly forward over a value and never
backwards over element or pair sequences. -/
theorem jfes_build_cursor_mono (fuel : Nat) (json : List Char)
    (tokens : List jfes_token_t) :
    (∀ i v j a r, jfes_build_value json tokens fuel i = (.ok (v, j), a, r) →
      i < j) ∧
    (∀ n i vs j a r,
      jfes_build_items json tokens fuel n i = (.ok (vs, j), a, r) →
      i ≤ j) ∧
    (∀ n i ps j a r,
      jfes_build_pairs json tokens fuel n i = (.ok (ps, j), a, r) →
      i ≤ j) := by
  induction fuel with
  | zero =>
    refine ⟨fun i v j a r h => ?_, fun n i vs j a r h => ?_,
           fun n i ps j a r h => ?_⟩ <;>
      simp only [jfes_build_value, jfes_build_items, jfes_build_pairs]
        at h <;>
      exact Except.noConfusion (jfes_res_eq h).1
  | succ m ih =>
    obtain ⟨ihv, ihi, ihp⟩ := ih
    refine ⟨?_, ?_, ?_⟩
    · intro i v j a r h
      simp only [jfes_build_value] at h
      split at h
      · exact Except.noConfusion (jfes_res_eq h).1
      · split at h
        · exact Except.noConfusion (jfes_res_eq h).1
        all_goals
          first
          | (obtain ⟨he, _, _⟩ := jfes_res_eq h
             obtain ⟨_, hj⟩ := Prod.mk.inj (Except.ok.inj he)
             omega)
          | (split at h
             · rename_i xs j' a' r' heq
               obtain ⟨he, _, _⟩ := jfes_res_eq h
               obtain ⟨_, hj⟩ := Prod.mk.inj (Except.ok.inj he)
               first
               | (have hx := ihi _ _ _ _ _ _ heq; omega)
               | (have hx := ihp _ _ _ _ _ _ heq; omega)
             · exact Except.noConfusion (jfes_res_eq h).1)
    · intro n i vs j a r h
      cases n with
      | zero =>
        simp only [jfes_build_items] at h
        obtain ⟨he, _, _⟩ := jfes_res_eq h
        obtain ⟨_, hj⟩ := Prod.mk.inj (Except.ok.inj he)
        omega
      | succ n' =>
        simp only [jfes_build_items] at h
        split at h
        · rename_i v' j' a' r' heq
          split at h
          · rename_i vs' k a'' r'' heq2
            obtain ⟨he, _, _⟩ := jfes_res_eq h
            obtain ⟨_, hj⟩ := Prod.mk.inj (Except.ok.inj he)
            have h1 := ihv _ _ _ _ _ heq
            have h2 := ihi _ _ _ _ _ _ heq2
            omega
          · exact Except.noConfusion (jfes_res_eq h).1
        · exact Except.noConfusion (jfes_res_eq h).1
    · intro n i ps j a r h
      cases n with
      | zero =>
        simp only [jfes_build_pairs] at h
        obtain ⟨he, _, _⟩ := jfes_res_eq h
        obtain ⟨_, hj⟩ := Prod.mk.inj (Except.ok.inj he)
        omega
      | succ n' =>
        simp only [jfes_build_pairs] at h
        split at h
        · exact Except.noConfusion (jfes_res_eq h).1
        · split at h
          · split at h
            · rename_i v' j' a' r' heq
              split at h
              · rename_i ps' k a'' r'' heq2
                obtain ⟨he, _, _⟩ := jfes_res_eq h
                obtain ⟨_, hj⟩ := Prod.mk.inj (Except.ok.inj he)
                have h1 := ihv _ _ _ _ _ heq
                have h2 := ihp _ _ _ _ _ _ heq2
                omega
              · exact Except.noConfusion (jfes_res_eq h).1
            · exact Except.noConfusion (jfes_res_eq h).1
          · exact Except.noConfusion (jfes_res_eq h).1
          · exact Except.noConfusion (jfes_res_eq h).1

/-- The keys of an object-pair sequence, read in stored order, come from
String tokens at strictly increasing token indices starting at the given
cursor: the stored order is the token (and hence source) order. -/
inductive jfes_keys_in_token_order (json : List Char)
    (tokens : List jfes_token_t) : Nat → jfes_object_items → Prop where
  | nil : ∀ i, jfes_keys_in_token_order json tokens i .nil
  | cons : ∀ i kt v ps j,
      tokens[i]? = some kt → kt.type = .jfes_string → i < j →
      jfes_keys_in_token_order json tokens j ps →
      jfes_keys_in_token_order json tokens i
        (.cons (jfes_unescape_string (jfes_token_span json kt)) v ps)

/-- Built object pairs are in key-token order: each key is the unescaped
span of a String token, and consecutive pairs take their keys from
strictly increasing token indices. -/
theorem jfes_build_pairs_key_order (json : List Char)
    (tokens : List jfes_token_t) :
    ∀ (fuel n i : Nat) (ps : jfes_object_items) (j a r : Nat),
      jfes_build_pairs json tokens fuel n i = (.ok (ps, j), a, r) →
      jfes_keys_in_token_order json tokens i ps := by
  intro fuel
  induction fuel with
  | zero =>
    intro n i ps j a r h
    simp only [jfes_build_pairs] at h
    exact Except.noConfusion (jfes_res_eq h).1
  | succ m ih =>
    intro n i ps j a r h
    cases n with
    | zero =>
      simp only [jfes_build_pairs] at h
      obtain ⟨he, _, _⟩ := jfes_res_eq h
      obtain ⟨hv, _⟩ := Prod.mk.inj (Except.ok.inj he)
      rw [← hv]
      exact .nil i
    | succ n' =>
      simp only [jfes_build_pairs] at h
      split at h
      · exact Except.noConfusion (jfes_res_eq h).1
      · rename_i kt hkt
        split at h
        · rename_i hkty
          split at h
          · rename_i v' j' a' r' heq
            split at h
            · rename_i ps' k a'' r'' heq2
              obtain ⟨he, _, _⟩ := jfes_res_eq h
              obtain ⟨hv, _⟩ := Prod.mk.inj (Except.ok.inj he)
              rw [← hv]
              have hmono := (jfes_build_cursor_mono m json tokens).1
                _ _ _ _ _ heq
              have hrec := ih n' j' ps' k a'' r'' heq2
              exact .cons i kt v' ps' j' hkt hkty (by omega) hrec
            · exact Except.noConfusion (jfes_res_eq h).1
          · exact Except.noConfusion (jfes_res_eq h).1
        · exact Except.noConfusion (jfes_res_eq h).1
        · exact Except.noConfusion (jfes_res_eq h).1

/-- A successful scan emits its tokens with strictly increasing start
positions: token emission order equals source order. -/
theorem jfes_core_pairwise (strict : Bool) (cap : Option Nat)
    (json : List Char) (length : Nat)
    (hs : (jfes_parse_tokens_core strict cap json length).1 =
      .jfes_success) :
    (jfes_parse_tokens_core strict cap json length).2.2.Pairwise
      (fun a b => a.start < b.start) := by
  rcases hloop : jfes_scan_loop strict cap length (length + 1) json 0
    ⟨[], -1⟩ with e | st
  · unfold jfes_parse_tokens_core at hs
    rw [hloop] at hs
    exact absurd hs (jfes_scan_loop_no_success strict cap length
      (length + 1) json 0 ⟨[], -1⟩ e hloop)
  · unfold jfes_parse_tokens_core
    rw [hloop]
    dsimp only
    have hb := jfes_scan_loop_bounds strict cap length (length + 1) json 0
      ⟨[], -1⟩ st hloop (by omega)
      ⟨fun u hu => absurd hu (List.not_mem_nil u), List.Pairwise.nil⟩
    exact List.pairwise_reverse.mpr hb.2

/-- C9: object members are never re-sorted.  (1) Every successful
`jfes_build_pairs` run produces its key/value pairs in key-token order:
each stored key is the unescaped span of a String token and consecutive
pairs take their keys from strictly increasing token indices.  (2) A
successful tokenization (as invoked by `jfes_parse_to_value`) emits tokens
with strictly increasing start positions, so token order is exactly source
order — together the stored pair order is the insertion order of the keys
in the source text.  (3) Concretely, parsing the object with keys b then a
keeps them in that source order rather than sorting them. -/
theorem claim_C9 :
    (∀ (json : List Char) (tokens : List jfes_token_t) (fuel n i : Nat)
        (ps : jfes_object_items) (j a r : Nat),
      jfes_build_pairs json tokens fuel n i = (.ok (ps, j), a, r) →
      jfes_keys_in_token_order json tokens i ps) ∧
    (∀ (json : List Char) (length : Nat),
      (jfes_parse_tokens_core JFES_STRICT (some JFES_MAX_TOKENS_COUNT)
        json length).1 = .jfes_success →
      (jfes_parse_tokens_core JFES_STRICT (some JFES_MAX_TOKENS_COUNT)
        json length).2.2.Pairwise (fun a b => a.start < b.start)) ∧
    ((jfes_parse_to_value
        ['\x7b', '\"', 'b', '\"', ':', '1', ',', '\"', 'a', '\"', ':', '2',
         '\x7d'] 13).result =
      .ok (.jobject (.cons ⟨['b'], 1⟩ (.jinteger 1)
        (.cons ⟨['a'], 1⟩ (.jinteger 2) .nil)))) :=
  ⟨fun json tokens fuel n i ps j a r h =>
    jfes_build_pairs_key_order json tokens fuel n i ps j a r h,
   fun json length h =>
    jfes_core_pairwise JFES_STRICT (some JFES_MAX_TOKENS_COUNT)
      json length h,
   rfl⟩

/-- Witness for C9 at the concrete object with keys b then a: its two
built pairs are in key-token order starting at token index 1, and its
five tokens have strictly increasing start positions. -/
theorem claim_C9_witness :
    jfes_keys_in_token_order
      ['\x7b', '\"', 'b', '\"', ':', '1', ',', '\"', 'a', '\"', ':', '2',
       '\x7d']
      ((jfes_parse_tokens_core JFES_STRICT (some JFES_MAX_TOKENS_COUNT)
        ['\x7b', '\"', 'b', '\"', ':', '1', ',', '\"', 'a', '\"', ':', '2',
         '\x7d'] 13).2.2) 1
      (.cons ⟨['b'], 1⟩ (.jinteger 1)
        (.cons ⟨['a'], 1⟩ (.jinteger 2) .nil)) ∧
    ((jfes_parse_tokens_core JFES_STRICT (some JFES_MAX_TOKENS_COUNT)
      ['\x7b', '\"', 'b', '\"', ':', '1', ',', '\"', 'a', '\"', ':', '2',
       '\x7d'] 13).2.2).Pairwise (fun a b => a.start < b.start) :=
  ⟨claim_C9.1
    ['\x7b', '\"', 'b', '\"', ':', '1', ',', '\"', 'a', '\"', ':', '2',
     '\x7d']
    ((jfes_parse_tokens_core JFES_STRICT (some JFES_MAX_TOKENS_COUNT)
      ['\x7b', '\"', 'b', '\"', ':', '1', ',', '\"', 'a', '\"', ':', '2',
       '\x7d'] 13).2.2) 8 2 1
    (.cons ⟨['b'], 1⟩ (.jinteger 1)
      (.cons ⟨['a'], 1⟩ (.jinteger 2) .nil)) 5 6 0 rfl,
   claim_C9.2.1
    ['\x7b', '\"', 'b', '\"', ':', '1', ',', '\"', 'a', '\"', ':', '2',
     '\x7d'] 13 rfl⟩
